import Mathlib

/-
Verification of the istanbulize core: an AST-based conversion from V8
engine coverage to an Istanbul coverage report.  The definitions below
are a shallow embedding of the library source (src/lib/index.ts):
the accumulator class IstambulizeScript (constructor traversal, add,
toIstanbul), and the helper functions addCount, matchFunctions,
getCount, resolveWrapper, unwrapScriptCov.  JavaScript Maps keyed by
node identity are modelled as association lists keyed by a node id,
preserving insertion order; thrown exceptions are modelled with an
error option returned next to the mutated state, so that mutations
performed before a throw stay visible, exactly as in the source.
-/

set_option autoImplicit false

namespace Istanbulize

/-- A line/column pair, as in a babel SourceLocation endpoint. -/
structure Position where
  line : Int
  column : Int
deriving DecidableEq, Repr

/-- A babel SourceLocation; the source field named end is called stop here
because end is a Lean keyword. -/
structure SourceLocation where
  start : Position
  stop : Position
deriving DecidableEq, Repr

/-- The node classifications that the library inspects, induced by the
babel predicates isFunction, isProgram, isStatement, isBlockStatement
and isFunctionDeclaration.  functionExpression stands for every
function-like node that is not a declaration (function expressions,
arrow functions, methods, ...); otherStatement for every statement
that is neither a block statement nor a function declaration;
other for all remaining node types. -/
inductive NodeKind where
  | program
  | functionDeclaration
  | functionExpression
  | blockStatement
  | otherStatement
  | other
deriving DecidableEq, Repr

/-- The babel path.isFunction() test: function declarations and all other
function-like nodes. -/
def NodeKind.isFunction : NodeKind → Bool
  | .functionDeclaration => true
  | .functionExpression => true
  | _ => false

/-- The babel path.isProgram() test. -/
def NodeKind.isProgram : NodeKind → Bool
  | .program => true
  | _ => false

/-- The babel path.isStatement() test, restricted to the kinds we model:
function declarations, block statements and other statements are
statements. -/
def NodeKind.isStatement : NodeKind → Bool
  | .functionDeclaration => true
  | .blockStatement => true
  | .otherStatement => true
  | _ => false

/-- The babel path.isBlockStatement() test. -/
def NodeKind.isBlockStatement : NodeKind → Bool
  | .blockStatement => true
  | _ => false

/-- The babel path.isFunctionDeclaration() test. -/
def NodeKind.isFunctionDeclaration : NodeKind → Bool
  | .functionDeclaration => true
  | _ => false

/-- A babel AST node as the library reads it: an identity (nid models
JavaScript object identity, the key of every Map in the source), the
byte-offset span fields start and end (the latter called endOff), a
source location and a kind.  The source never mutates these fields. -/
structure Node where
  nid : Nat
  kind : NodeKind
  start : Int
  endOff : Int
  loc : SourceLocation
deriving DecidableEq, Repr

mutual
/-- A babel AST: a node together with its children, in traversal order. -/
inductive Tree where
  | node : Node → Forest → Tree
/-- A list of sibling subtrees, in traversal order. -/
inductive Forest where
  | nil : Forest
  | cons : Tree → Forest → Forest
end

/-- One V8 range-count triple: RangeCov from the coverage input. -/
structure RangeCov where
  startOffset : Int
  endOffset : Int
  count : Int
deriving DecidableEq, Repr

/-- One V8 function coverage entry: FunctionCov from the coverage input. -/
structure FunctionCov where
  functionName : String
  ranges : List RangeCov
  isBlockCoverage : Bool
deriving DecidableEq, Repr

/-- One V8 script coverage snapshot: ScriptCov from the coverage input. -/
structure ScriptCov where
  scriptId : String
  url : String
  functions : List FunctionCov
deriving DecidableEq, Repr

/-- The error kinds the source can throw.  typeError models the
JavaScript TypeError raised by reading a property of
funcCov.ranges[0] when the ranges list is empty; the other three
are the explicit throw sites. -/
inductive Err where
  | typeError
  | unknownNode
  | countNotFound
  | invalidScriptCov
deriving DecidableEq, Repr

/-- Map.get on a JavaScript Map keyed by node identity. -/
def mapGet {α : Type} (m : List (Node × α)) (n : Node) : Option α :=
  match m with
  | [] => none
  | (k, v) :: rest => if k.nid = n.nid then some v else mapGet rest n

/-- Map.set on a JavaScript Map keyed by node identity: replaces the value
in place when the key is present (keeping the original key object and
its position), appends otherwise. -/
def mapSet {α : Type} (m : List (Node × α)) (n : Node) (v : α) : List (Node × α) :=
  match m with
  | [] => [(n, v)]
  | (k, w) :: rest =>
    if k.nid = n.nid then (k, v) :: rest else (k, w) :: mapSet rest n v

/-- Set.add on a JavaScript Set of nodes: appends unless already present. -/
def setAdd (s : List Node) (n : Node) : List Node :=
  if s.any (fun r => r.nid = n.nid) then s else s ++ [n]

/-- One entry of the statementCounts map: the statement node, the root
recorded on the node via ROOT_SYMBOL at traversal time, and the
running count. -/
structure StmtEntry where
  node : Node
  root : Option Node
  count : Int
deriving DecidableEq, Repr

/-- statementCounts.set(node, 0) at registration time, paired with the
ROOT_SYMBOL assignment that the traversal performed on the node just
before. -/
def stmtSet (entries : List StmtEntry) (n : Node) (root : Option Node) : List StmtEntry :=
  match entries with
  | [] => [⟨n, root, 0⟩]
  | e :: rest =>
    if e.node.nid = n.nid then ⟨e.node, root, 0⟩ :: rest else e :: stmtSet rest n root

/-- The private state of the IstambulizeScript class. -/
structure IstambulizeScript where
  path : Option String
  roots : List Node
  functionNames : List (Node × String)
  functionCounts : List (Node × Int)
  statementCounts : List StmtEntry
deriving DecidableEq, Repr

/-- The ROOT_SYMBOL value the traversal assigns to the children of a node:
the node itself when it is a function or the program, otherwise the
tag inherited from the parent. -/
def childRoot (parentRoot : Option Node) (n : Node) : Option Node :=
  if n.kind.isFunction || n.kind.isProgram then some n else parentRoot

/-- The enter callback of the constructor traversal, for one node, given
the ROOT_SYMBOL tag of its parent. -/
def enter (parentRoot : Option Node) (n : Node) (st : IstambulizeScript) : IstambulizeScript :=
  { path := st.path
    roots := if n.kind.isFunction || n.kind.isProgram then setAdd st.roots n else st.roots
    functionNames := st.functionNames
    functionCounts :=
      if n.kind.isFunction then mapSet st.functionCounts n 0 else st.functionCounts
    statementCounts :=
      if n.kind.isStatement && !(n.kind.isBlockStatement || n.kind.isFunctionDeclaration)
      then stmtSet st.statementCounts n (childRoot parentRoot n)
      else st.statementCounts }

mutual
/-- babelTraverse with the constructor's enter visitor, over one subtree. -/
def enterTree (parentRoot : Option Node) (st : IstambulizeScript) : Tree → IstambulizeScript
  | .node n cs => enterForest (childRoot parentRoot n) (enter parentRoot n st) cs
/-- babelTraverse with the constructor's enter visitor, over a list of
sibling subtrees, left to right. -/
def enterForest (parentRoot : Option Node) (st : IstambulizeScript) : Forest → IstambulizeScript
  | .nil => st
  | .cons t ts => enterForest parentRoot (enterTree parentRoot st t) ts
end

/-- The IstambulizeScript constructor: parse (external, represented by the
tree argument) and run the registration traversal from an empty state. -/
def construct (t : Tree) : IstambulizeScript :=
  enterTree none ⟨none, [], [], [], []⟩ t

/-- The getCount loop body: scan a list of ranges (already reversed, so
scanning front to back here is the source's last-to-first scan) and
return the count of the first range whose span encloses the node span. -/
def getCountGo (node : Node) : List RangeCov → Except Err Int
  | [] => .error .countNotFound
  | r :: rest =>
    if r.startOffset ≤ node.start ∧ node.endOff ≤ r.endOffset then .ok r.count
    else getCountGo node rest

/-- getCount from the source: scan rangeCovs from last to first, return the
count of the first enclosing range, throw CountNotFound otherwise. -/
def getCount (rangeCovs : List RangeCov) (node : Node) : Except Err Int :=
  getCountGo node rangeCovs.reverse

/-- The comparison in matchFunctions: funcRange.startOffset === funcNode.start
and funcRange.endOffset === funcNode.end. -/
def spanMatches (r : RangeCov) (n : Node) : Bool :=
  r.startOffset == n.start && r.endOffset == n.endOff

/-- The inner loop of matchFunctions, on the reversed remaining pool: find
the first entry (scanning the original pool from last to first) whose
ranges[0] exactly matches the node span, returning its index in the
original pool together with the entry.  Reading ranges[0] of an entry
with no ranges throws, as in JavaScript. -/
def findFromLast (n : Node) : List FunctionCov → Except Err (Option (Nat × FunctionCov))
  | [] => .ok none
  | f :: rest =>
    match f.ranges with
    | [] => .error .typeError
    | r0 :: _ =>
      if spanMatches r0 n then .ok (some (rest.length, f))
      else findFromLast n rest

/-- The outer loop of matchFunctions: for each root in traversal order,
scan the remaining pool from last to first for an exact-span match,
splice the match out of the pool and record it. -/
def matchFunctionsGo :
    List Node → List FunctionCov → List (Node × FunctionCov) →
    Except Err (List (Node × FunctionCov))
  | [], _, matched => .ok matched
  | n :: ns, remaining, matched =>
    match findFromLast n remaining.reverse with
    | .error e => .error e
    | .ok none => matchFunctionsGo ns remaining matched
    | .ok (some (i, f)) => matchFunctionsGo ns (remaining.eraseIdx i) (mapSet matched n f)

/-- matchFunctions from the source. -/
def matchFunctions (funcNodes : List Node) (funcCovs : List FunctionCov) :
    Except Err (List (Node × FunctionCov)) :=
  matchFunctionsGo funcNodes funcCovs []

/-- addCount from the source: throws UnknownNode when the node is not a key
of the counts map, otherwise adds to the stored count. -/
def addCount (counts : List (Node × Int)) (node : Node) (count : Int) :
    Except Err (List (Node × Int)) :=
  match mapGet counts node with
  | none => .error .unknownNode
  | some oldCount => .ok (mapSet counts node (oldCount + count))

/-- The first loop of add: for every matched pair whose node is not the
Program, add ranges[0].count to functionCounts via addCount and record
the function name.  A throw aborts the loop, keeping the mutations
already performed. -/
def addFuncs (st : IstambulizeScript) :
    List (Node × FunctionCov) → IstambulizeScript × Option Err
  | [] => (st, none)
  | (n, funcCov) :: rest =>
    if n.kind.isProgram then addFuncs st rest
    else
      match funcCov.ranges with
      | [] => (st, some .typeError)
      | r0 :: _ =>
        match addCount st.functionCounts n r0.count with
        | .error e => (st, some e)
        | .ok fc =>
          addFuncs
            { st with functionCounts := fc,
                      functionNames := mapSet st.functionNames n funcCov.functionName }
            rest

/-- The second loop of add: for every registered statement in order, skip
it when it has no recorded root or its root was not matched in this
snapshot, otherwise add the getCount result to its running count.  A
CountNotFound throw aborts the loop, keeping the updates already
performed and leaving the remaining entries untouched. -/
def addStmts (funcs : List (Node × FunctionCov)) :
    List StmtEntry → List StmtEntry × Option Err
  | [] => ([], none)
  | e :: rest =>
    match e.root with
    | none =>
      let (rest2, err) := addStmts funcs rest
      (e :: rest2, err)
    | some root =>
      match mapGet funcs root with
      | none =>
        let (rest2, err) := addStmts funcs rest
        (e :: rest2, err)
      | some funcCov =>
        match getCount funcCov.ranges e.node with
        | .error er => (e :: rest, some er)
        | .ok c =>
          let (rest2, err) := addStmts funcs rest
          ({ e with count := e.count + c } :: rest2, err)

/-- IstambulizeScript.add: record the url as the current path, run the
function matcher, then the two update loops.  The returned state holds
every mutation performed before a throw; the option is the thrown error. -/
def add (st : IstambulizeScript) (scriptCov : ScriptCov) : IstambulizeScript × Option Err :=
  match matchFunctions st.roots scriptCov.functions with
  | .error e => ({ st with path := some scriptCov.url }, some e)
  | .ok funcs =>
    match addFuncs { st with path := some scriptCov.url } funcs with
    | (st2, some e) => (st2, some e)
    | (st2, none) =>
      match addStmts funcs st2.statementCounts with
      | (entries, err) => ({ st2 with statementCounts := entries }, err)

/-- A sequence of add calls, keeping the state a failing call leaves behind. -/
def addAll (st : IstambulizeScript) (covs : List ScriptCov) : IstambulizeScript :=
  covs.foldl (fun s c => (add s c).1) st

/-- One fnMap entry of the report. -/
structure IstanbulFunction where
  name : String
  decl : SourceLocation
  loc : SourceLocation
  line : Int
deriving DecidableEq, Repr

/-- The report shape: IstanbulFileCoverageData.  Records with string keys
are modelled as ordered key/value lists; the branch maps never hold
entries so their value types are placeholders. -/
structure IstanbulFileCoverageData where
  path : String
  statementMap : List (String × SourceLocation)
  s : List (String × Int)
  fnMap : List (String × IstanbulFunction)
  f : List (String × Int)
  branchMap : List (String × Unit)
  b : List (String × List Int)
deriving DecidableEq, Repr

/-- The loop of getStatements: synthetic keys s0, s1, ... in the fixed
iteration order of statementCounts. -/
def statementsGo (i : Nat) :
    List StmtEntry → List (String × SourceLocation) × List (String × Int)
  | [] => ([], [])
  | e :: rest =>
    let key := "s" ++ toString i
    let (m, s) := statementsGo (i + 1) rest
    ((key, e.node.loc) :: m, (key, e.count) :: s)

/-- The loop of getFunctions: synthetic keys f0, f1, ... in the fixed
iteration order of functionCounts, with the last-observed name or "". -/
def functionsGo (names : List (Node × String)) (i : Nat) :
    List (Node × Int) → List (String × IstanbulFunction) × List (String × Int)
  | [] => ([], [])
  | (n, c) :: rest =>
    let key := "f" ++ toString i
    let name :=
      match mapGet names n with
      | some nm => nm
      | none => ""
    let (m, f) := functionsGo names (i + 1) rest
    ((key, ⟨name, n.loc, n.loc, n.loc.start.line⟩) :: m, (key, c) :: f)

/-- IstambulizeScript.toIstanbul: path (or "" when add was never called),
the statement and function maps, and the always-empty branch maps. -/
def toIstanbul (st : IstambulizeScript) : IstanbulFileCoverageData :=
  let (statementMap, s) := statementsGo 0 st.statementCounts
  let (fnMap, f) := functionsGo st.functionNames 0 st.functionCounts
  { path :=
      match st.path with
      | some p => p
      | none => ""
    statementMap := statementMap
    s := s
    fnMap := fnMap
    f := f
    branchMap := []
    b := [] }

/-- The WrapperLike input of resolveWrapper: each side is a string or a
number. -/
def WrapperLike : Type := (String ⊕ Int) × (String ⊕ Int)

/-- resolveWrapper from the source: the length of each wrapper side. -/
def resolveWrapper (wrapper : WrapperLike) : Int × Int :=
  let prefixLen : Int :=
    match wrapper.1 with
    | .inl s => (s.length : Int)
    | .inr k => k
  let suffixLen : Int :=
    match wrapper.2 with
    | .inl s => (s.length : Int)
    | .inr k => k
  (prefixLen, suffixLen)

/-- unwrapScriptCov from the source: shift every range down by the wrapper
body start and clamp it to the unwrapped body, dropping collapsed
ranges and functions left with no range. -/
def unwrapScriptCov (scriptCov : ScriptCov) (wrapper : WrapperLike) :
    Except Err ScriptCov :=
  match scriptCov.functions with
  | [] => .ok scriptCov
  | rootFunc :: _ =>
    match rootFunc.ranges with
    | [] => .error .invalidScriptCov
    | rootRange :: _ =>
      let (prefixLen, suffixLen) := resolveWrapper wrapper
      let bodyStart := prefixLen
      let bodyEnd := rootRange.endOffset - suffixLen
      let bodyLen := bodyEnd - bodyStart
      let functions := scriptCov.functions.filterMap (fun func =>
        let ranges : List RangeCov := func.ranges.filterMap (fun range =>
          let startOffset := max (range.startOffset - bodyStart) 0
          let endOffset := min (range.endOffset - bodyStart) bodyLen
          if startOffset < endOffset then
            some ⟨startOffset, endOffset, range.count⟩
          else none)
        if ranges.length > 0 then some { func with ranges := ranges } else none)
      .ok { scriptCov with functions := functions }

/-! Basic facts about the Range Matcher. -/

/-- A concrete source location used by the concrete examples below. -/
def loc0 : SourceLocation := ⟨⟨1, 0⟩, ⟨1, 0⟩⟩

/-- The enclosing-span test of getCount, as a reusable predicate. -/
def enclosesSpan (r : RangeCov) (node : Node) : Prop :=
  r.startOffset ≤ node.start ∧ node.endOff ≤ r.endOffset

instance (r : RangeCov) (node : Node) : Decidable (enclosesSpan r node) := by
  unfold enclosesSpan; infer_instance

theorem getCountGo_eq_find? (node : Node) (l : List RangeCov) :
    getCountGo node l =
      match l.find? (fun r => decide (enclosesSpan r node)) with
      | some r => .ok r.count
      | none => .error .countNotFound := by
  induction l with
  | nil => rfl
  | cons r rest ih =>
    by_cases h : r.startOffset ≤ node.start ∧ node.endOff ≤ r.endOffset
    · rw [List.find?_cons_of_pos _ (by simpa [enclosesSpan] using h)]
      unfold getCountGo
      rw [if_pos h]
    · rw [List.find?_cons_of_neg _ (by simpa [enclosesSpan] using h)]
      unfold getCountGo
      rw [if_neg h, ih]

theorem getCount_eq_find? (ranges : List RangeCov) (node : Node) :
    getCount ranges node =
      match ranges.reverse.find? (fun r => decide (enclosesSpan r node)) with
      | some r => .ok r.count
      | none => .error .countNotFound :=
  getCountGo_eq_find? node ranges.reverse

theorem getCount_err_iff (ranges : List RangeCov) (node : Node) :
    getCount ranges node = .error .countNotFound ↔
      ∀ r ∈ ranges, ¬ enclosesSpan r node := by
  rw [getCount_eq_find?]
  rcases h : ranges.reverse.find? (fun r => decide (enclosesSpan r node)) with _ | r
  · rw [List.find?_eq_none] at h
    simp only [List.mem_reverse, decide_eq_true_eq] at h
    simpa using h
  · have hr := List.find?_some h
    have hmem : r ∈ ranges := List.mem_reverse.mp (List.mem_of_find?_eq_some h)
    simp only [decide_eq_true_eq] at hr
    constructor
    · intro hc; cases hc
    · intro hall; exact absurd hr (hall r hmem)

/-- C2: the Range Matcher (getCount) scans the ranges from last to first
and returns the count of the first range encountered whose span encloses
the node span (range.start ≤ node.start and node.end ≤ range.end); with
ranges [0,100) count 1 and [10,20) count 5, a node spanning [12,15)
resolves to count 5, not 1; and it fails with CountNotFound exactly when
no range in the list encloses the node span. -/
theorem getCount_lastToFirst_spec :
    (∀ (ranges : List RangeCov) (node : Node),
        getCount ranges node =
          match ranges.reverse.find? (fun r => decide (enclosesSpan r node)) with
          | some r => .ok r.count
          | none => .error .countNotFound) ∧
    (getCount [⟨0, 100, 1⟩, ⟨10, 20, 5⟩] ⟨0, .otherStatement, 12, 15, loc0⟩ = .ok 5) ∧
    (∀ (ranges : List RangeCov) (node : Node),
        getCount ranges node = .error .countNotFound ↔
          ∀ r ∈ ranges, ¬ enclosesSpan r node) :=
  ⟨getCount_eq_find?, rfl, getCount_err_iff⟩

/-! The unwrap utility (claim C10). -/

theorem unwrapScriptCov_nil (cov : ScriptCov) (w : WrapperLike)
    (h : cov.functions = []) : unwrapScriptCov cov w = .ok cov := by
  unfold unwrapScriptCov
  rw [h]

theorem unwrapScriptCov_invalid (cov : ScriptCov) (w : WrapperLike)
    (rootFunc : FunctionCov) (fs : List FunctionCov)
    (hf : cov.functions = rootFunc :: fs) (hr : rootFunc.ranges = []) :
    unwrapScriptCov cov w = .error .invalidScriptCov := by
  simp only [unwrapScriptCov, hf, hr]

theorem unwrapScriptCov_ranges_bounded (cov : ScriptCov) (w : WrapperLike)
    (rootFunc : FunctionCov) (fs : List FunctionCov)
    (rootRange : RangeCov) (rs : List RangeCov) (out : ScriptCov)
    (hf : cov.functions = rootFunc :: fs) (hr : rootFunc.ranges = rootRange :: rs)
    (hok : unwrapScriptCov cov w = .ok out) :
    ∀ g ∈ out.functions, g.ranges ≠ [] ∧
      ∀ r ∈ g.ranges,
        0 ≤ r.startOffset ∧ r.startOffset < r.endOffset ∧
        r.endOffset ≤ rootRange.endOffset - (resolveWrapper w).2 - (resolveWrapper w).1 := by
  simp only [unwrapScriptCov, hf, hr] at hok
  cases hw : resolveWrapper w with
  | mk prefixLen suffixLen =>
    simp only [hw, Except.ok.injEq] at hok
    intro g hg
    rw [← hok] at hg
    simp only [List.mem_filterMap] at hg
    obtain ⟨func, _, hfunc⟩ := hg
    split at hfunc
    case isTrue hlen =>
      cases hfunc
      dsimp only
      simp only [gt_iff_lt, List.length_pos] at hlen
      refine ⟨hlen, fun r hrm => ?_⟩
      · simp only [List.mem_filterMap] at hrm
        obtain ⟨range, _, hrange⟩ := hrm
        split at hrange
        case isTrue hcmp =>
          cases hrange
          refine ⟨le_max_right _ _, hcmp, min_le_right _ _⟩
        case isFalse hcmp => cases hrange
    case isFalse hlen => cases hfunc

/-- C10: unwrapScriptCov returns its input unchanged when the functions
list is empty; throws InvalidScriptCov when functions[0].ranges is empty;
and otherwise, on success, every emitted function keeps at least one
range and every emitted range r satisfies 0 ≤ r.startOffset <
r.endOffset ≤ bodyLen, where bodyLen is the unwrapped body length
functions[0].ranges[0].endOffset - suffixLen - prefixLen. -/
theorem unwrapScriptCov_spec (cov : ScriptCov) (w : WrapperLike) :
    (cov.functions = [] → unwrapScriptCov cov w = .ok cov) ∧
    (∀ rootFunc fs, cov.functions = rootFunc :: fs → rootFunc.ranges = [] →
        unwrapScriptCov cov w = .error .invalidScriptCov) ∧
    (∀ rootFunc fs rootRange rs out,
        cov.functions = rootFunc :: fs → rootFunc.ranges = rootRange :: rs →
        unwrapScriptCov cov w = .ok out →
        ∀ g ∈ out.functions, g.ranges ≠ [] ∧
          ∀ r ∈ g.ranges,
            0 ≤ r.startOffset ∧ r.startOffset < r.endOffset ∧
            r.endOffset ≤ rootRange.endOffset - (resolveWrapper w).2 - (resolveWrapper w).1) :=
  ⟨unwrapScriptCov_nil cov w,
   fun rootFunc fs hf hr => unwrapScriptCov_invalid cov w rootFunc fs hf hr,
   fun rootFunc fs rootRange rs out hf hr hok =>
     unwrapScriptCov_ranges_bounded cov w rootFunc fs rootRange rs out hf hr hok⟩

/-- Concrete witness data for unwrapScriptCov: a two-function snapshot
wrapped with prefix length 2 and suffix length 1. -/
def wrapEx : WrapperLike := (Sum.inr 2, Sum.inr 1)

/-- A wrapped snapshot: the root function spans the wrapped script. -/
def covWrapped : ScriptCov :=
  ⟨"0", "file:///a.js",
   [⟨"", [⟨0, 13, 1⟩], false⟩,
    ⟨"g", [⟨3, 8, 4⟩, ⟨0, 1, 9⟩], true⟩]⟩

/-- A snapshot whose first function has no ranges. -/
def covNoRanges : ScriptCov := ⟨"0", "file:///b.js", [⟨"", [], false⟩]⟩

/-- An empty snapshot. -/
def covEmptyFns : ScriptCov := ⟨"0", "file:///c.js", []⟩

/-- Witness for C10: the three conjuncts of unwrapScriptCov_spec applied at
concrete inputs, with every hypothesis discharged by evaluation. -/
theorem unwrapScriptCov_spec_witness :
    (unwrapScriptCov covEmptyFns wrapEx = .ok covEmptyFns) ∧
    (unwrapScriptCov covNoRanges wrapEx = .error .invalidScriptCov) ∧
    (∀ g ∈ (⟨"0", "file:///a.js",
        [⟨"", [⟨0, 10, 1⟩], false⟩, ⟨"g", [⟨1, 6, 4⟩], true⟩]⟩ : ScriptCov).functions,
      g.ranges ≠ [] ∧
      ∀ r ∈ g.ranges,
        0 ≤ r.startOffset ∧ r.startOffset < r.endOffset ∧
        r.endOffset ≤ (13 : Int) - (resolveWrapper wrapEx).2 - (resolveWrapper wrapEx).1) := by
  refine ⟨(unwrapScriptCov_spec covEmptyFns wrapEx).1 rfl,
    (unwrapScriptCov_spec covNoRanges wrapEx).2.1 ⟨"", [], false⟩ [] rfl rfl, ?_⟩
  have h := (unwrapScriptCov_spec covWrapped wrapEx).2.2
    ⟨"", [⟨0, 13, 1⟩], false⟩ [⟨"g", [⟨3, 8, 4⟩, ⟨0, 1, 9⟩], true⟩] ⟨0, 13, 1⟩ []
    ⟨"0", "file:///a.js", [⟨"", [⟨0, 10, 1⟩], false⟩, ⟨"g", [⟨1, 6, 4⟩], true⟩]⟩
    rfl rfl (by rfl)
  exact h

/-! Association-list map lemmas. -/

theorem mapGet_congr {α : Type} (m : List (Node × α)) (n n' : Node)
    (h : n.nid = n'.nid) : mapGet m n = mapGet m n' := by
  induction m with
  | nil => rfl
  | cons p rest ih =>
    cases p with
    | mk k w => simp only [mapGet, h, ih]

theorem mapGet_mapSet_same {α : Type} (m : List (Node × α)) (n n' : Node) (v : α)
    (h : n.nid = n'.nid) : mapGet (mapSet m n v) n' = some v := by
  induction m with
  | nil => simp [mapGet, mapSet, h]
  | cons p rest ih =>
    cases p with
    | mk k w =>
      by_cases hk : k.nid = n.nid
      · simp [mapGet, mapSet, hk, h]
      · have hk' : ¬ k.nid = n'.nid := fun he => hk (he.trans h.symm)
        simp [mapGet, mapSet, hk, hk', ih]

theorem mapGet_mapSet_other {α : Type} (m : List (Node × α)) (n n' : Node) (v : α)
    (h : ¬ n.nid = n'.nid) : mapGet (mapSet m n v) n' = mapGet m n' := by
  induction m with
  | nil => simp [mapGet, mapSet, h]
  | cons p rest ih =>
    cases p with
    | mk k w =>
      by_cases hk : k.nid = n.nid
      · have hk' : ¬ k.nid = n'.nid := fun he => h (hk.symm.trans he)
        simp [mapGet, mapSet, hk, hk', h]
      · simp only [mapSet, if_neg hk]
        by_cases hk' : k.nid = n'.nid
        · simp [mapGet, hk']
        · simp [mapGet, hk', ih]

theorem mapSet_fst_of_mem {α : Type} (m : List (Node × α)) (n : Node) (v : α)
    (h : (mapGet m n).isSome) :
    (mapSet m n v).map Prod.fst = m.map Prod.fst := by
  induction m with
  | nil => simp [mapGet] at h
  | cons p rest ih =>
    cases p with
    | mk k w =>
      by_cases hk : k.nid = n.nid
      · simp [mapSet, hk]
      · simp only [mapGet, if_neg hk] at h
        simp [mapSet, hk, ih h]

theorem mapGet_isSome_of_fst_mem {α : Type} (m : List (Node × α)) (n : Node)
    (h : ∃ k ∈ m.map Prod.fst, k.nid = n.nid) : (mapGet m n).isSome := by
  induction m with
  | nil => simp at h
  | cons p rest ih =>
    cases p with
    | mk k w =>
      by_cases hk : k.nid = n.nid
      · simp [mapGet, hk]
      · simp only [mapGet, if_neg hk]
        apply ih
        simp only [List.map_cons, List.mem_cons] at h
        obtain ⟨k', hk', he⟩ := h
        rcases hk' with rfl | hk'
        · exact absurd he hk
        · exact ⟨k', hk', he⟩

/-! Structural lemmas about the first loop of add. -/

theorem addFuncs_frame (l : List (Node × FunctionCov)) (st : IstambulizeScript) :
    (addFuncs st l).1.path = st.path ∧
    (addFuncs st l).1.roots = st.roots ∧
    (addFuncs st l).1.statementCounts = st.statementCounts := by
  induction l generalizing st with
  | nil => exact ⟨rfl, rfl, rfl⟩
  | cons p rest ih =>
    obtain ⟨n, funcCov⟩ := p
    by_cases hp : n.kind.isProgram
    · simp only [addFuncs, if_pos hp]; exact ih st
    · cases hr : funcCov.ranges with
      | nil => simp [addFuncs, if_neg hp, hr]
      | cons r0 rrest =>
        cases hc : addCount st.functionCounts n r0.count with
        | error e => simp [addFuncs, if_neg hp, hr, hc]
        | ok fc =>
          simp only [addFuncs, if_neg hp, hr, hc]
          exact ih _

theorem addCount_ok_elim (counts : List (Node × Int)) (n : Node) (c : Int)
    (fc : List (Node × Int)) (h : addCount counts n c = .ok fc) :
    ∃ oldCount, mapGet counts n = some oldCount ∧ fc = mapSet counts n (oldCount + c) := by
  unfold addCount at h
  cases hg : mapGet counts n with
  | none => rw [hg] at h; cases h
  | some oldCount =>
    rw [hg] at h
    cases h
    exact ⟨oldCount, rfl, rfl⟩

theorem addFuncs_fc_keys (l : List (Node × FunctionCov)) (st : IstambulizeScript) :
    ((addFuncs st l).1.functionCounts).map Prod.fst = st.functionCounts.map Prod.fst := by
  induction l generalizing st with
  | nil => rfl
  | cons p rest ih =>
    obtain ⟨n, funcCov⟩ := p
    by_cases hp : n.kind.isProgram
    · simp only [addFuncs, if_pos hp]; exact ih st
    · cases hr : funcCov.ranges with
      | nil => simp only [addFuncs, if_neg hp, hr]
      | cons r0 rrest =>
        cases hc : addCount st.functionCounts n r0.count with
        | error e => simp only [addFuncs, if_neg hp, hr, hc]
        | ok fc =>
          simp only [addFuncs, if_neg hp, hr, hc]
          rw [ih]
          obtain ⟨oldCount, hg, rfl⟩ := addCount_ok_elim _ _ _ _ hc
          exact mapSet_fst_of_mem _ _ _ (by rw [hg]; rfl)

theorem addFuncs_fc_mono (l : List (Node × FunctionCov)) (st : IstambulizeScript)
    (hnn : ∀ p ∈ l, ∀ r ∈ p.2.ranges, 0 ≤ r.count) :
    ∀ n v, mapGet st.functionCounts n = some v →
      ∃ w, mapGet (addFuncs st l).1.functionCounts n = some w ∧ v ≤ w := by
  induction l generalizing st with
  | nil => exact fun n v hv => ⟨v, hv, le_refl v⟩
  | cons p rest ih =>
    obtain ⟨m, funcCov⟩ := p
    intro n v hv
    by_cases hp : m.kind.isProgram
    · simp only [addFuncs, if_pos hp]
      exact ih st (fun q hq => hnn q (List.mem_cons_of_mem _ hq)) n v hv
    · cases hr : funcCov.ranges with
      | nil =>
        simp only [addFuncs, if_neg hp, hr]
        exact ⟨v, hv, le_refl v⟩
      | cons r0 rrest =>
        cases hc : addCount st.functionCounts m r0.count with
        | error e =>
          simp only [addFuncs, if_neg hp, hr, hc]
          exact ⟨v, hv, le_refl v⟩
        | ok fc =>
          simp only [addFuncs, if_neg hp, hr, hc]
          obtain ⟨oldCount, hg, rfl⟩ := addCount_ok_elim _ _ _ _ hc
          have h0 : 0 ≤ r0.count := by
            refine hnn (m, funcCov) (List.mem_cons_self _ _) r0 ?_
            rw [hr]; exact List.mem_cons_self _ _
          by_cases hnid : m.nid = n.nid
          · have hv' : mapGet (mapSet st.functionCounts m (oldCount + r0.count)) n =
                some (oldCount + r0.count) := mapGet_mapSet_same _ _ _ _ hnid
            have hov : oldCount = v := by
              have hmn : mapGet st.functionCounts n = some oldCount := by
                rw [← mapGet_congr st.functionCounts m n hnid]; exact hg
              rw [hmn] at hv
              exact Option.some_injective _ hv
            obtain ⟨w, hw, hle⟩ := ih
              { st with functionCounts := mapSet st.functionCounts m (oldCount + r0.count),
                        functionNames := mapSet st.functionNames m funcCov.functionName }
              (fun q hq => hnn q (List.mem_cons_of_mem _ hq))
              n (oldCount + r0.count) hv'
            exact ⟨w, hw, by omega⟩
          · have hv' : mapGet (mapSet st.functionCounts m (oldCount + r0.count)) n =
                some v := by rw [mapGet_mapSet_other _ _ _ _ hnid]; exact hv
            exact ih
              { st with functionCounts := mapSet st.functionCounts m (oldCount + r0.count),
                        functionNames := mapSet st.functionNames m funcCov.functionName }
              (fun q hq => hnn q (List.mem_cons_of_mem _ hq)) n v hv'

theorem perm_cons_eraseIdx {α : Type} (l : List α) (i : Nat) (x : α)
    (h : l.get? i = some x) : l.Perm (x :: l.eraseIdx i) := by
  induction l generalizing i with
  | nil => cases h
  | cons a t ih =>
    cases i with
    | zero =>
      cases h
      exact List.Perm.refl _
    | succ j =>
      have := (ih j h).cons a
      exact this.trans (List.Perm.swap _ _ _)

theorem addFuncs_fc_untouched (l : List (Node × FunctionCov)) (st : IstambulizeScript)
    (n : Node) (h : ∀ p ∈ l, ¬ p.1.nid = n.nid) :
    mapGet (addFuncs st l).1.functionCounts n = mapGet st.functionCounts n := by
  induction l generalizing st with
  | nil => rfl
  | cons p rest ih =>
    obtain ⟨m, funcCov⟩ := p
    have hm : ¬ m.nid = n.nid := h (m, funcCov) (List.mem_cons_self _ _)
    have hrest := fun q hq => h q (List.mem_cons_of_mem _ hq)
    by_cases hp : m.kind.isProgram
    · simp only [addFuncs, if_pos hp]; exact ih st hrest
    · cases hr : funcCov.ranges with
      | nil => simp [addFuncs, if_neg hp, hr]
      | cons r0 rrest =>
        cases hc : addCount st.functionCounts m r0.count with
        | error e => simp [addFuncs, if_neg hp, hr, hc]
        | ok fc =>
          simp only [addFuncs, if_neg hp, hr, hc]
          obtain ⟨oldCount, hg, rfl⟩ := addCount_ok_elim _ _ _ _ hc
          rw [ih _ hrest]
          exact mapGet_mapSet_other _ _ _ _ hm

theorem getCount_ok_mem (ranges : List RangeCov) (node : Node) (c : Int)
    (h : getCount ranges node = .ok c) : ∃ r ∈ ranges, r.count = c := by
  unfold getCount at h
  have : ∀ l : List RangeCov, getCountGo node l = .ok c → ∃ r ∈ l, r.count = c := by
    intro l hl
    induction l with
    | nil => cases hl
    | cons r rest ih =>
      unfold getCountGo at hl
      split at hl
      · cases hl
        exact ⟨r, List.mem_cons_self _ _, rfl⟩
      · obtain ⟨r', hr', hc'⟩ := ih hl
        exact ⟨r', List.mem_cons_of_mem _ hr', hc'⟩
  obtain ⟨r, hr, hc⟩ := this ranges.reverse h
  exact ⟨r, List.mem_reverse.mp hr, hc⟩

/-- The pointwise relation addStmts guarantees without extra hypotheses:
nodes and recorded roots are preserved, the count is untouched whenever
the entry has no recorded root or its root has no match, and the count
only ever grows by a getCount result of its matched cov. -/
theorem addStmts_pointwise (funcs : List (Node × FunctionCov)) (entries : List StmtEntry) :
    List.Forall₂ (fun e e' : StmtEntry =>
      e'.node = e.node ∧ e'.root = e.root ∧
      ((e.root = none ∨ ∃ r, e.root = some r ∧ mapGet funcs r = none) → e'.count = e.count) ∧
      (e'.count = e.count ∨ ∃ root funcCov c, e.root = some root ∧
        mapGet funcs root = some funcCov ∧ getCount funcCov.ranges e.node = .ok c ∧
        e'.count = e.count + c))
      entries (addStmts funcs entries).1 := by
  have hrefl : ∀ l : List StmtEntry,
      List.Forall₂ (fun e e' : StmtEntry =>
        e'.node = e.node ∧ e'.root = e.root ∧
        ((e.root = none ∨ ∃ r, e.root = some r ∧ mapGet funcs r = none) → e'.count = e.count) ∧
        (e'.count = e.count ∨ ∃ root funcCov c, e.root = some root ∧
          mapGet funcs root = some funcCov ∧ getCount funcCov.ranges e.node = .ok c ∧
          e'.count = e.count + c)) l l := by
    intro l
    exact List.forall₂_same.mpr (fun e _ => ⟨rfl, rfl, fun _ => rfl, Or.inl rfl⟩)
  induction entries with
  | nil => exact List.Forall₂.nil
  | cons e rest ih =>
    cases hroot : e.root with
    | none =>
      simp only [addStmts, hroot]
      exact List.Forall₂.cons ⟨rfl, rfl, fun _ => rfl, Or.inl rfl⟩ ih
    | some root =>
      cases hget : mapGet funcs root with
      | none =>
        simp only [addStmts, hroot, hget]
        exact List.Forall₂.cons ⟨rfl, rfl, fun _ => rfl, Or.inl rfl⟩ ih
      | some funcCov =>
        cases hcnt : getCount funcCov.ranges e.node with
        | error er =>
          simp only [addStmts, hroot, hget, hcnt]
          exact List.Forall₂.cons ⟨rfl, rfl, fun _ => rfl, Or.inl rfl⟩ (hrefl rest)
        | ok c =>
          simp only [addStmts, hroot, hget, hcnt]
          refine List.Forall₂.cons ⟨rfl, hroot.symm, fun hcontra => ?_, ?_⟩ ih
          · rcases hcontra with hn | ⟨r, hr, hng⟩
            · rw [hroot] at hn; cases hn
            · rw [hroot] at hr
              cases hr
              rw [hng] at hget; cases hget
          · exact Or.inr ⟨root, funcCov, c, hroot, hget, hcnt, rfl⟩

/-! Membership facts about the Function Matcher. -/

theorem mem_mapSet {α : Type} (m : List (Node × α)) (n : Node) (v : α) :
    ∀ p ∈ mapSet m n v, p ∈ m ∨ p.2 = v := by
  induction m with
  | nil => intro p hp; simp [mapSet] at hp; simp [hp]
  | cons q rest ih =>
    obtain ⟨k, w⟩ := q
    intro p hp
    by_cases hk : k.nid = n.nid
    · simp only [mapSet, if_pos hk, List.mem_cons] at hp
      rcases hp with rfl | hp
      · exact Or.inr rfl
      · exact Or.inl (List.mem_cons_of_mem _ hp)
    · simp only [mapSet, if_neg hk, List.mem_cons] at hp
      rcases hp with rfl | hp
      · exact Or.inl (List.mem_cons_self _ _)
      · rcases ih p hp with h | h
        · exact Or.inl (List.mem_cons_of_mem _ h)
        · exact Or.inr h

theorem mapSet_fst_subset {α : Type} (m : List (Node × α)) (n : Node) (v : α) :
    ∀ k ∈ (mapSet m n v).map Prod.fst, k ∈ m.map Prod.fst ∨ k = n := by
  induction m with
  | nil =>
    intro k hk
    simp only [mapSet, List.map_cons, List.map_nil, List.mem_singleton] at hk
    exact Or.inr hk
  | cons q rest ih =>
    obtain ⟨kq, wq⟩ := q
    intro k hk
    by_cases hkq : kq.nid = n.nid
    · simp only [mapSet, if_pos hkq, List.map_cons, List.mem_cons] at hk
      rcases hk with rfl | hk
      · exact Or.inl (by simp)
      · exact Or.inl (by rw [List.map_cons]; exact List.mem_cons_of_mem _ hk)
    · simp only [mapSet, if_neg hkq, List.map_cons, List.mem_cons] at hk
      rcases hk with rfl | hk
      · exact Or.inl (by simp)
      · rcases ih k hk with h | h
        · exact Or.inl (by rw [List.map_cons]; exact List.mem_cons_of_mem _ h)
        · exact Or.inr h

theorem findFromLast_some_spec (n : Node) (l : List FunctionCov) (i : Nat) (f : FunctionCov)
    (h : findFromLast n l = .ok (some (i, f))) :
    l.reverse.get? i = some f ∧ i < l.length ∧
      ∃ r0 rs, f.ranges = r0 :: rs ∧ spanMatches r0 n = true := by
  induction l with
  | nil => cases h
  | cons g rest ih =>
    cases hr : g.ranges with
    | nil =>
      simp only [findFromLast, hr] at h
      cases h
    | cons r0 rs =>
      simp only [findFromLast, hr] at h
      by_cases hs : spanMatches r0 n = true
      · rw [if_pos hs] at h
        cases h
        refine ⟨?_, by simp, r0, rs, hr, hs⟩
        rw [List.reverse_cons, List.get?_append_right (by simp)]
        simp
      · rw [if_neg hs] at h
        obtain ⟨hget, hlt, hspan⟩ := ih h
        refine ⟨?_, Nat.lt_succ_of_lt (by simpa using hlt), hspan⟩
        rw [List.reverse_cons, List.get?_append (by simpa using hlt)]
        exact hget

theorem findFromLast_reverse_get (n : Node) (remaining : List FunctionCov)
    (i : Nat) (f : FunctionCov)
    (h : findFromLast n remaining.reverse = .ok (some (i, f))) :
    remaining.get? i = some f := by
  have := (findFromLast_some_spec n remaining.reverse i f h).1
  rwa [List.reverse_reverse] at this

theorem findFromLast_some_mem (n : Node) (remaining : List FunctionCov)
    (i : Nat) (f : FunctionCov)
    (h : findFromLast n remaining.reverse = .ok (some (i, f))) : f ∈ remaining :=
  List.get?_mem (findFromLast_reverse_get n remaining i f h)

theorem matchFunctionsGo_mem (ns : List Node) (remaining : List FunctionCov)
    (acc m : List (Node × FunctionCov))
    (h : matchFunctionsGo ns remaining acc = .ok m) :
    ∀ p ∈ m, (p ∈ acc ∨ p.2 ∈ remaining) ∧ (p.1 ∈ acc.map Prod.fst ∨ p.1 ∈ ns) := by
  induction ns generalizing remaining acc with
  | nil =>
    cases h
    exact fun p hp => ⟨Or.inl hp, Or.inl (List.mem_map_of_mem _ hp)⟩
  | cons n ns' ih =>
    unfold matchFunctionsGo at h
    cases hf : findFromLast n remaining.reverse with
    | error e => rw [hf] at h; cases h
    | ok o =>
      rw [hf] at h
      cases o with
      | none =>
        intro p hp
        obtain ⟨h1, h2⟩ := ih remaining acc h p hp
        exact ⟨h1, h2.imp_right (List.mem_cons_of_mem _)⟩
      | some pr =>
        obtain ⟨i, f⟩ := pr
        intro p hp
        obtain ⟨h1, h2⟩ := ih _ _ h p hp
        constructor
        · rcases h1 with h1 | h1
          · rcases mem_mapSet acc n f p h1 with hm | hm
            · exact Or.inl hm
            · exact Or.inr (hm ▸ findFromLast_some_mem n remaining i f hf)
          · exact Or.inr ((List.eraseIdx_sublist remaining i).subset h1)
        · rcases h2 with h2 | h2
          · rcases mapSet_fst_subset acc n f p.1 h2 with hm | hm
            · exact Or.inl hm
            · exact Or.inr (hm ▸ List.mem_cons_self _ _)
          · exact Or.inr (List.mem_cons_of_mem _ h2)

theorem matchFunctions_mem (nodes : List Node) (covs : List FunctionCov)
    (m : List (Node × FunctionCov)) (h : matchFunctions nodes covs = .ok m) :
    ∀ p ∈ m, p.2 ∈ covs ∧ p.1 ∈ nodes := by
  intro p hp
  obtain ⟨h1, h2⟩ := matchFunctionsGo_mem nodes covs [] m h p hp
  exact ⟨h1.resolve_left (by simp), h2.resolve_left (by simp)⟩

/-! State-shape facts about one add call. -/

theorem add_path (st : IstambulizeScript) (cov : ScriptCov) :
    (add st cov).1.path = some cov.url := by
  cases hm : matchFunctions st.roots cov.functions with
  | error e => simp [add, hm]
  | ok funcs =>
    cases haf : addFuncs { st with path := some cov.url } funcs with
    | mk st2 err =>
      have hfr := (addFuncs_frame funcs { st with path := some cov.url }).1
      rw [haf] at hfr
      cases err with
      | none =>
        cases has : addStmts funcs st2.statementCounts with
        | mk entries err2 =>
          simp only [add, hm, haf, has]
          exact hfr
      | some e =>
        simp only [add, hm, haf]
        exact hfr

theorem add_roots (st : IstambulizeScript) (cov : ScriptCov) :
    (add st cov).1.roots = st.roots := by
  cases hm : matchFunctions st.roots cov.functions with
  | error e => simp [add, hm]
  | ok funcs =>
    cases haf : addFuncs { st with path := some cov.url } funcs with
    | mk st2 err =>
      have hfr := (addFuncs_frame funcs { st with path := some cov.url }).2.1
      rw [haf] at hfr
      cases err with
      | none =>
        cases has : addStmts funcs st2.statementCounts with
        | mk entries err2 =>
          simp only [add, hm, haf, has]
          exact hfr
      | some e =>
        simp only [add, hm, haf]
        exact hfr

theorem add_fc_keys (st : IstambulizeScript) (cov : ScriptCov) :
    ((add st cov).1.functionCounts).map Prod.fst = st.functionCounts.map Prod.fst := by
  cases hm : matchFunctions st.roots cov.functions with
  | error e => simp [add, hm]
  | ok funcs =>
    cases haf : addFuncs { st with path := some cov.url } funcs with
    | mk st2 err =>
      have hfr := addFuncs_fc_keys funcs { st with path := some cov.url }
      rw [haf] at hfr
      cases err with
      | none =>
        cases has : addStmts funcs st2.statementCounts with
        | mk entries err2 =>
          simp only [add, hm, haf, has]
          exact hfr
      | some e =>
        simp only [add, hm, haf]
        exact hfr

theorem add_fc_mono (st : IstambulizeScript) (cov : ScriptCov)
    (hnn : ∀ f ∈ cov.functions, ∀ r ∈ f.ranges, 0 ≤ r.count) :
    ∀ n v, mapGet st.functionCounts n = some v →
      ∃ w, mapGet (add st cov).1.functionCounts n = some w ∧ v ≤ w := by
  intro n v hv
  cases hm : matchFunctions st.roots cov.functions with
  | error e =>
    simp only [add, hm]
    exact ⟨v, hv, le_refl v⟩
  | ok funcs =>
    have hnn' : ∀ p ∈ funcs, ∀ r ∈ p.2.ranges, 0 ≤ r.count := fun p hp =>
      hnn p.2 (matchFunctions_mem _ _ _ hm p hp).1
    have hmono := addFuncs_fc_mono funcs { st with path := some cov.url } hnn' n v hv
    cases haf : addFuncs { st with path := some cov.url } funcs with
    | mk st2 err =>
      rw [haf] at hmono
      cases err with
      | none =>
        cases has : addStmts funcs st2.statementCounts with
        | mk entries err2 =>
          simp only [add, hm, haf, has]
          exact hmono
      | some e =>
        simp only [add, hm, haf]
        exact hmono

theorem add_fc_untouched (st : IstambulizeScript) (cov : ScriptCov)
    (funcs : List (Node × FunctionCov))
    (hm : matchFunctions st.roots cov.functions = .ok funcs) (n : Node)
    (h : ∀ p ∈ funcs, ¬ p.1.nid = n.nid) :
    mapGet (add st cov).1.functionCounts n = mapGet st.functionCounts n := by
  have hun := addFuncs_fc_untouched funcs { st with path := some cov.url } n h
  cases haf : addFuncs { st with path := some cov.url } funcs with
  | mk st2 err =>
    rw [haf] at hun
    cases err with
    | none =>
      cases has : addStmts funcs st2.statementCounts with
      | mk entries err2 =>
        simp only [add, hm, haf, has]
        exact hun
    | some e =>
      simp only [add, hm, haf]
      exact hun

/-- The statement update of one add call, relative to a successful match
result: nodes and roots preserved, unmatched entries untouched, matched
entries grown by their getCount value. -/
theorem add_sc_rel (st : IstambulizeScript) (cov : ScriptCov)
    (funcs : List (Node × FunctionCov))
    (hm : matchFunctions st.roots cov.functions = .ok funcs) :
    List.Forall₂ (fun e e' : StmtEntry =>
      e'.node = e.node ∧ e'.root = e.root ∧
      ((e.root = none ∨ ∃ r, e.root = some r ∧ mapGet funcs r = none) → e'.count = e.count) ∧
      (e'.count = e.count ∨ ∃ root funcCov c, e.root = some root ∧
        mapGet funcs root = some funcCov ∧ getCount funcCov.ranges e.node = .ok c ∧
        e'.count = e.count + c))
      st.statementCounts (add st cov).1.statementCounts := by
  have hrefl : List.Forall₂ (fun e e' : StmtEntry =>
      e'.node = e.node ∧ e'.root = e.root ∧
      ((e.root = none ∨ ∃ r, e.root = some r ∧ mapGet funcs r = none) → e'.count = e.count) ∧
      (e'.count = e.count ∨ ∃ root funcCov c, e.root = some root ∧
        mapGet funcs root = some funcCov ∧ getCount funcCov.ranges e.node = .ok c ∧
        e'.count = e.count + c))
      st.statementCounts st.statementCounts :=
    List.forall₂_same.mpr (fun e _ => ⟨rfl, rfl, fun _ => rfl, Or.inl rfl⟩)
  cases haf : addFuncs { st with path := some cov.url } funcs with
  | mk st2 err =>
    have hsc : st2.statementCounts = st.statementCounts := by
      have hfr := (addFuncs_frame funcs { st with path := some cov.url }).2.2
      rw [haf] at hfr
      exact hfr
    cases err with
    | some e =>
      simp only [add, hm, haf]
      exact hsc ▸ hrefl
    | none =>
      have hpt := addStmts_pointwise funcs st2.statementCounts
      cases has : addStmts funcs st2.statementCounts with
      | mk entries err2 =>
        rw [has] at hpt
        simp only [add, hm, haf, has]
        rw [← hsc]
        exact hpt

theorem add_empty_functions (st : IstambulizeScript) (cov : ScriptCov)
    (h : cov.functions = []) :
    add st cov = ({ st with path := some cov.url }, none) := by
  have hmatch : ∀ ns acc, matchFunctionsGo ns ([] : List FunctionCov) acc = .ok acc := by
    intro ns
    induction ns with
    | nil => intro acc; rfl
    | cons n ns' ih => intro acc; simpa [matchFunctionsGo, findFromLast] using ih acc
  have hstmts : ∀ entries, addStmts [] entries = (entries, none) := by
    intro entries
    induction entries with
    | nil => rfl
    | cons e rest ih =>
      cases hroot : e.root with
      | none => simp [addStmts, hroot, ih]
      | some root => simp [addStmts, hroot, mapGet, ih]
  have hm0 : matchFunctions st.roots ([] : List FunctionCov) = .ok [] := hmatch st.roots []
  simp only [add, h, hm0, addFuncs, hstmts]

/-! Invariants established by the construction traversal. -/

theorem mapGet_mapSet_isSome_mono {α : Type} (m : List (Node × α)) (n k : Node) (v : α)
    (h : (mapGet m k).isSome) : (mapGet (mapSet m n v) k).isSome := by
  by_cases hk : n.nid = k.nid
  · rw [mapGet_mapSet_same m n k v hk]; rfl
  · rw [mapGet_mapSet_other m n k v hk]; exact h

theorem mem_stmtSet (entries : List StmtEntry) (n : Node) (root : Option Node) :
    ∀ e ∈ stmtSet entries n root, e ∈ entries ∨ e.count = 0 := by
  induction entries with
  | nil =>
    intro e he
    simp only [stmtSet, List.mem_singleton] at he
    exact Or.inr (by rw [he])
  | cons q rest ih =>
    intro e he
    by_cases hq : q.node.nid = n.nid
    · simp only [stmtSet, if_pos hq, List.mem_cons] at he
      rcases he with rfl | he
      · exact Or.inr rfl
      · exact Or.inl (List.mem_cons_of_mem _ he)
    · simp only [stmtSet, if_neg hq, List.mem_cons] at he
      rcases he with rfl | he
      · exact Or.inl (List.mem_cons_self _ _)
      · rcases ih e he with h | h
        · exact Or.inl (List.mem_cons_of_mem _ h)
        · exact Or.inr h

theorem mem_setAdd (s : List Node) (n : Node) :
    ∀ m ∈ setAdd s n, m ∈ s ∨ m = n := by
  intro m hm
  unfold setAdd at hm
  split at hm
  · exact Or.inl hm
  · rcases List.mem_append.mp hm with h | h
    · exact Or.inl h
    · exact Or.inr (List.mem_singleton.mp h)

/-- The state invariant the constructor traversal keeps: the path is
still unset, every root is a function or the program, every function
root is registered in functionCounts, and all counts are zero. -/
def ConstructInv (st : IstambulizeScript) : Prop :=
  st.path = none ∧
  (∀ n ∈ st.roots, (n.kind.isFunction || n.kind.isProgram) = true ∧
    (n.kind.isFunction = true → (mapGet st.functionCounts n).isSome)) ∧
  (∀ p ∈ st.functionCounts, p.2 = 0) ∧
  (∀ e ∈ st.statementCounts, e.count = 0)

theorem enter_inv (pr : Option Node) (n : Node) (st : IstambulizeScript)
    (h : ConstructInv st) : ConstructInv (enter pr n st) := by
  obtain ⟨hpath, hroots, hfc, hsc⟩ := h
  refine ⟨hpath, ?_, ?_, ?_⟩
  · intro m hm
    unfold enter at hm
    by_cases hroot : (n.kind.isFunction || n.kind.isProgram) = true
    · rw [if_pos hroot] at hm
      have hmem := mem_setAdd st.roots n m hm
      rcases hmem with hmem | rfl
      · obtain ⟨hk, hreg⟩ := hroots m hmem
        refine ⟨hk, fun hf => ?_⟩
        unfold enter
        by_cases hfn : n.kind.isFunction = true
        · rw [if_pos hfn]
          exact mapGet_mapSet_isSome_mono _ _ _ _ (hreg hf)
        · rw [if_neg hfn]
          exact hreg hf
      · refine ⟨hroot, fun hf => ?_⟩
        unfold enter
        rw [if_pos hf]
        rw [mapGet_mapSet_same _ _ _ _ rfl]
        rfl
    · rw [if_neg hroot] at hm
      obtain ⟨hk, hreg⟩ := hroots m hm
      refine ⟨hk, fun hf => ?_⟩
      unfold enter
      have hfn : ¬ n.kind.isFunction = true := fun hfn =>
        hroot (by rw [hfn]; rfl)
      rw [if_neg hfn]
      exact hreg hf
  · intro p hp
    unfold enter at hp
    by_cases hfn : n.kind.isFunction = true
    · rw [if_pos hfn] at hp
      rcases mem_mapSet _ _ _ p hp with h | h
      · exact hfc p h
      · exact h
    · rw [if_neg hfn] at hp
      exact hfc p hp
  · intro e he
    unfold enter at he
    by_cases hst : (n.kind.isStatement &&
        !(n.kind.isBlockStatement || n.kind.isFunctionDeclaration)) = true
    · rw [if_pos hst] at he
      rcases mem_stmtSet _ _ _ e he with h | h
      · exact hsc e h
      · exact h
    · rw [if_neg hst] at he
      exact hsc e he

mutual
theorem enterTree_inv (pr : Option Node) (st : IstambulizeScript) :
    ∀ t : Tree, ConstructInv st → ConstructInv (enterTree pr st t)
  | .node n cs, h => enterForest_inv (childRoot pr n) (enter pr n st) cs (enter_inv pr n st h)
theorem enterForest_inv (pr : Option Node) (st : IstambulizeScript) :
    ∀ f : Forest, ConstructInv st → ConstructInv (enterForest pr st f)
  | .nil, h => h
  | .cons t ts, h => enterForest_inv pr (enterTree pr st t) ts (enterTree_inv pr st t h)
end

theorem construct_inv (t : Tree) : ConstructInv (construct t) :=
  enterTree_inv none ⟨none, [], [], [], []⟩ t
    ⟨rfl, fun n hn => absurd hn (List.not_mem_nil n), fun p hp => absurd hp (List.not_mem_nil p),
      fun e he => absurd he (List.not_mem_nil e)⟩

/-! Which errors each stage can produce. -/

theorem findFromLast_error (n : Node) (l : List FunctionCov) (e : Err)
    (h : findFromLast n l = .error e) : e = .typeError := by
  induction l with
  | nil => cases h
  | cons g rest ih =>
    cases hr : g.ranges with
    | nil =>
      simp only [findFromLast, hr] at h
      cases h
      rfl
    | cons r0 rs =>
      simp only [findFromLast, hr] at h
      split at h
      · cases h
      · exact ih h

theorem matchFunctionsGo_error (ns : List Node) (remaining : List FunctionCov)
    (acc : List (Node × FunctionCov)) (e : Err)
    (h : matchFunctionsGo ns remaining acc = .error e) : e = .typeError := by
  induction ns generalizing remaining acc with
  | nil => cases h
  | cons n ns' ih =>
    unfold matchFunctionsGo at h
    cases hf : findFromLast n remaining.reverse with
    | error e' =>
      rw [hf] at h
      cases h
      exact findFromLast_error _ _ _ hf
    | ok o =>
      rw [hf] at h
      cases o with
      | none => exact ih remaining acc h
      | some pr =>
        obtain ⟨i, f⟩ := pr
        exact ih _ _ h

theorem getCountGo_error (node : Node) (l : List RangeCov) (e : Err)
    (h : getCountGo node l = .error e) : e = .countNotFound := by
  induction l with
  | nil =>
    unfold getCountGo at h
    cases h
    rfl
  | cons r rest ih =>
    unfold getCountGo at h
    split at h
    · cases h
    · exact ih h

theorem getCount_error (ranges : List RangeCov) (node : Node) (e : Err)
    (h : getCount ranges node = .error e) : e = .countNotFound :=
  getCountGo_error node ranges.reverse e h

theorem addStmts_error (funcs : List (Node × FunctionCov)) (entries : List StmtEntry)
    (e : Err) (h : (addStmts funcs entries).2 = some e) : e = .countNotFound := by
  induction entries with
  | nil => cases h
  | cons q rest ih =>
    cases hroot : q.root with
    | none =>
      simp only [addStmts, hroot] at h
      exact ih h
    | some root =>
      cases hget : mapGet funcs root with
      | none =>
        simp only [addStmts, hroot, hget] at h
        exact ih h
      | some funcCov =>
        cases hcnt : getCount funcCov.ranges q.node with
        | error er =>
          simp only [addStmts, hroot, hget, hcnt] at h
          cases h
          exact getCount_error _ _ _ hcnt
        | ok c =>
          simp only [addStmts, hroot, hget, hcnt] at h
          exact ih h

theorem addFuncs_no_unknown (l : List (Node × FunctionCov)) (st : IstambulizeScript)
    (h : ∀ p ∈ l, p.1.kind.isProgram = false → (mapGet st.functionCounts p.1).isSome) :
    (addFuncs st l).2 ≠ some .unknownNode := by
  induction l generalizing st with
  | nil => intro hc; cases hc
  | cons p rest ih =>
    obtain ⟨n, funcCov⟩ := p
    by_cases hp : n.kind.isProgram
    · simp only [addFuncs, if_pos hp]
      exact ih st (fun q hq => h q (List.mem_cons_of_mem _ hq))
    · cases hr : funcCov.ranges with
      | nil =>
        simp only [addFuncs, if_neg hp, hr]
        intro hc
        cases hc
      | cons r0 rrest =>
        have hpre : (mapGet st.functionCounts n).isSome :=
          h (n, funcCov) (List.mem_cons_self _ _) (by simpa using hp)
        cases hget : mapGet st.functionCounts n with
        | none => rw [hget] at hpre; cases hpre
        | some oldCount =>
          have hc : addCount st.functionCounts n r0.count =
              .ok (mapSet st.functionCounts n (oldCount + r0.count)) := by
            unfold addCount
            rw [hget]
          simp only [addFuncs, if_neg hp, hr, hc]
          refine ih _ (fun q hq hqp => ?_)
          exact mapGet_mapSet_isSome_mono _ _ _ _
            (h q (List.mem_cons_of_mem _ hq) hqp)

theorem mapGet_mem {α : Type} (m : List (Node × α)) (n : Node) (v : α)
    (h : mapGet m n = some v) : ∃ k, (k, v) ∈ m := by
  induction m with
  | nil => cases h
  | cons p rest ih =>
    obtain ⟨k, w⟩ := p
    by_cases hk : k.nid = n.nid
    · rw [mapGet, if_pos hk] at h
      cases h
      exact ⟨k, List.mem_cons_self _ _⟩
    · rw [mapGet, if_neg hk] at h
      obtain ⟨k', hk'⟩ := ih h
      exact ⟨k', List.mem_cons_of_mem _ hk'⟩

theorem mapGet_some_fst_mem {α : Type} (m : List (Node × α)) (n : Node) (v : α)
    (h : mapGet m n = some v) : ∃ k ∈ m.map Prod.fst, k.nid = n.nid := by
  induction m with
  | nil => cases h
  | cons p rest ih =>
    obtain ⟨k, w⟩ := p
    by_cases hk : k.nid = n.nid
    · exact ⟨k, by simp, hk⟩
    · rw [mapGet, if_neg hk] at h
      obtain ⟨k', hk', he⟩ := ih h
      exact ⟨k', by simp [hk'], he⟩

theorem forall₂_mem_right {α β : Type} {R : α → β → Prop} {l : List α} {l' : List β}
    (h : List.Forall₂ R l l') : ∀ y ∈ l', ∃ x ∈ l, R x y := by
  induction h with
  | nil => intro y hy; cases hy
  | cons ha hrest ih =>
    intro y hy
    rcases List.mem_cons.mp hy with rfl | hy
    · exact ⟨_, List.mem_cons_self _ _, ha⟩
    · obtain ⟨x, hx, hr⟩ := ih y hy
      exact ⟨x, List.mem_cons_of_mem _ hx, hr⟩

/-- The statement counts of one add call never decrease when every range
count in the snapshot is non-negative, and nodes and roots stay put. -/
theorem add_sc_mono (st : IstambulizeScript) (cov : ScriptCov)
    (hnn : ∀ f ∈ cov.functions, ∀ r ∈ f.ranges, 0 ≤ r.count) :
    List.Forall₂ (fun e e' : StmtEntry =>
      e'.node = e.node ∧ e'.root = e.root ∧ e.count ≤ e'.count)
      st.statementCounts (add st cov).1.statementCounts := by
  cases hm : matchFunctions st.roots cov.functions with
  | error e =>
    simp only [add, hm]
    exact List.forall₂_same.mpr (fun e _ => ⟨rfl, rfl, le_refl _⟩)
  | ok funcs =>
    refine (add_sc_rel st cov funcs hm).imp (fun {e e'} h => ?_)
    obtain ⟨hn, hr, _, hgrow⟩ := h
    refine ⟨hn, hr, ?_⟩
    rcases hgrow with heq | ⟨root, funcCov, c, _, hget, hcnt, hplus⟩
    · rw [heq]
    · obtain ⟨k, hkmem⟩ := mapGet_mem funcs root funcCov hget
      have hfmem : funcCov ∈ cov.functions :=
        (matchFunctions_mem _ _ _ hm (k, funcCov) hkmem).1
      obtain ⟨r, hrm, hrc⟩ := getCount_ok_mem _ _ _ hcnt
      have : 0 ≤ c := hrc ▸ hnn funcCov hfmem r hrm
      rw [hplus]
      omega

theorem sc_rel_nodes {l l' : List StmtEntry}
    (h : List.Forall₂ (fun e e' : StmtEntry => e'.node = e.node ∧ e'.root = e.root) l l') :
    l'.map (fun e => (e.node, e.root)) = l.map (fun e => (e.node, e.root)) := by
  induction h with
  | nil => rfl
  | cons ha hrest ih =>
    simp only [List.map_cons, ih, ha.1, ha.2]

theorem add_sc_nodes (st : IstambulizeScript) (cov : ScriptCov) :
    ((add st cov).1.statementCounts).map (fun e => (e.node, e.root)) =
      st.statementCounts.map (fun e => (e.node, e.root)) := by
  cases hm : matchFunctions st.roots cov.functions with
  | error e => simp [add, hm]
  | ok funcs =>
    exact sc_rel_nodes ((add_sc_rel st cov funcs hm).imp (fun {e e'} h => ⟨h.1, h.2.1⟩))

/-! The same facts lifted to any sequence of add calls. -/

theorem addAll_cons (st : IstambulizeScript) (c : ScriptCov) (cs : List ScriptCov) :
    addAll st (c :: cs) = addAll (add st c).1 cs := rfl

theorem addAll_roots (st : IstambulizeScript) (covs : List ScriptCov) :
    (addAll st covs).roots = st.roots := by
  induction covs generalizing st with
  | nil => rfl
  | cons c cs ih => rw [addAll_cons, ih, add_roots]

theorem addAll_fc_keys (st : IstambulizeScript) (covs : List ScriptCov) :
    ((addAll st covs).functionCounts).map Prod.fst = st.functionCounts.map Prod.fst := by
  induction covs generalizing st with
  | nil => rfl
  | cons c cs ih => rw [addAll_cons, ih, add_fc_keys]

theorem addAll_sc_nodes (st : IstambulizeScript) (covs : List ScriptCov) :
    ((addAll st covs).statementCounts).map (fun e => (e.node, e.root)) =
      st.statementCounts.map (fun e => (e.node, e.root)) := by
  induction covs generalizing st with
  | nil => rfl
  | cons c cs ih => rw [addAll_cons, ih, add_sc_nodes]

theorem addAll_path (st : IstambulizeScript) (covs : List ScriptCov) (cov : ScriptCov)
    (h : covs.getLast? = some cov) : (addAll st covs).path = some cov.url := by
  induction covs generalizing st with
  | nil => cases h
  | cons c cs ih =>
    cases cs with
    | nil =>
      simp only [List.getLast?_singleton, Option.some.injEq] at h
      rw [← h]
      exact add_path st c
    | cons c2 cs' =>
      rw [List.getLast?_cons_cons] at h
      rw [addAll_cons]
      exact ih _ h

/-- C9: an accumulator built by the constructor, after any number of add
calls, never throws UnknownNode from a further add: every function root
is pre-registered at construction, matchFunctions only returns keys from
the roots set, and the Program root is excluded before addCount runs. -/
theorem add_never_unknownNode (t : Tree) (covs : List ScriptCov) (cov : ScriptCov) :
    (add (addAll (construct t) covs) cov).2 ≠ some Err.unknownNode := by
  set st := addAll (construct t) covs with hst
  obtain ⟨_, hroots0, _, _⟩ := construct_inv t
  have hroots : st.roots = (construct t).roots := by rw [hst]; exact addAll_roots _ _
  have hkeys : st.functionCounts.map Prod.fst = (construct t).functionCounts.map Prod.fst := by
    rw [hst]; exact addAll_fc_keys _ _
  have hreg : ∀ n ∈ st.roots, n.kind.isProgram = false → (mapGet st.functionCounts n).isSome := by
    intro n hn hp
    rw [hroots] at hn
    obtain ⟨hk, hr⟩ := hroots0 n hn
    have hf : n.kind.isFunction = true := by
      cases hkind : n.kind.isFunction
      · rw [hkind, hp] at hk; cases hk
      · rfl
    have := hr hf
    obtain ⟨v, hv⟩ := Option.isSome_iff_exists.mp this
    obtain ⟨k, hkm, hke⟩ := mapGet_some_fst_mem _ _ _ hv
    exact mapGet_isSome_of_fst_mem _ _ ⟨k, by rw [hkeys]; exact hkm, hke⟩
  intro hcontra
  cases hm : matchFunctions st.roots cov.functions with
  | error e =>
    simp only [add, hm] at hcontra
    cases hcontra
    exact absurd (matchFunctionsGo_error _ _ _ _ hm) (by intro h; cases h)
  | ok funcs =>
    have hfuncs : ∀ p ∈ funcs, p.1.kind.isProgram = false →
        (mapGet ({ st with path := some cov.url } : IstambulizeScript).functionCounts p.1).isSome :=
      fun p hp hpp => hreg p.1 (matchFunctions_mem _ _ _ hm p hp).2 hpp
    cases haf : addFuncs { st with path := some cov.url } funcs with
    | mk st2 err =>
      have hnu := addFuncs_no_unknown funcs { st with path := some cov.url } hfuncs
      rw [haf] at hnu
      cases err with
      | some e =>
        simp only [add, hm, haf] at hcontra
        cases hcontra
        exact hnu rfl
      | none =>
        cases has : addStmts funcs st2.statementCounts with
        | mk entries err2 =>
          simp only [add, hm, haf, has] at hcontra
          cases hcontra
          have := addStmts_error funcs st2.statementCounts _ (by rw [has])
          cases this

/-! Concrete example data used by witnesses and counterexamples. -/

/-- A program node spanning offsets 0 to 20. -/
def progNode : Node := ⟨0, .program, 0, 20, loc0⟩

/-- A function expression node spanning offsets 0 to 10. -/
def funcNode : Node := ⟨1, .functionExpression, 0, 10, loc0⟩

/-- A statement node nested inside the span of funcNode. -/
def stmtNode : Node := ⟨2, .otherStatement, 2, 5, loc0⟩

/-- A statement node recorded under funcNode but whose span falls outside
every range of the matched coverage entry. -/
def stmtNodeBad : Node := ⟨2, .otherStatement, 12, 15, loc0⟩

/-- program > function > statement, with the statement inside the span. -/
def exTree : Tree :=
  .node progNode (.cons (.node funcNode (.cons (.node stmtNode .nil) .nil)) .nil)

/-- program > function > statement, with the statement outside the span. -/
def exTreeBad : Tree :=
  .node progNode (.cons (.node funcNode (.cons (.node stmtNodeBad .nil) .nil)) .nil)

/-- A snapshot whose single entry exactly matches funcNode with count 1. -/
def covA : ScriptCov := ⟨"1", "file:///t.js", [⟨"g", [⟨0, 10, 1⟩], true⟩]⟩

/-- A second snapshot matching funcNode with count 1 under another name. -/
def covB : ScriptCov := ⟨"1", "file:///t.js", [⟨"h", [⟨0, 10, 1⟩], true⟩]⟩

/-- A snapshot matching funcNode with count 7. -/
def covBad : ScriptCov := ⟨"1", "file:///u.js", [⟨"g", [⟨0, 10, 7⟩], true⟩]⟩

/-- A snapshot with no function entries at all. -/
def covEmpty : ScriptCov := ⟨"1", "file:///e.js", []⟩

/-! Claim C4: key stability, non-negativity and monotonicity. -/

theorem addAll_fc_nonneg (st : IstambulizeScript) (covs : List ScriptCov)
    (hnn : ∀ cov ∈ covs, ∀ f ∈ cov.functions, ∀ r ∈ f.ranges, 0 ≤ r.count)
    (hst : ∀ n v, mapGet st.functionCounts n = some v → 0 ≤ v) :
    ∀ n v, mapGet (addAll st covs).functionCounts n = some v → 0 ≤ v := by
  induction covs generalizing st with
  | nil => exact hst
  | cons c cs ih =>
    rw [addAll_cons]
    refine ih (add st c).1 (fun cov hc => hnn cov (List.mem_cons_of_mem _ hc)) ?_
    intro n w hw
    obtain ⟨k, hkm, hke⟩ := mapGet_some_fst_mem _ _ _ hw
    rw [add_fc_keys] at hkm
    obtain ⟨v, hv⟩ := Option.isSome_iff_exists.mp (mapGet_isSome_of_fst_mem _ _ ⟨k, hkm, hke⟩)
    obtain ⟨w', hw', hle⟩ :=
      add_fc_mono st c (hnn c (List.mem_cons_self _ _)) n v hv
    rw [hw] at hw'
    cases hw'
    exact le_trans (hst n v hv) hle

theorem addAll_sc_nonneg (st : IstambulizeScript) (covs : List ScriptCov)
    (hnn : ∀ cov ∈ covs, ∀ f ∈ cov.functions, ∀ r ∈ f.ranges, 0 ≤ r.count)
    (hst : ∀ e ∈ st.statementCounts, 0 ≤ e.count) :
    ∀ e ∈ (addAll st covs).statementCounts, 0 ≤ e.count := by
  induction covs generalizing st with
  | nil => exact hst
  | cons c cs ih =>
    rw [addAll_cons]
    refine ih (add st c).1 (fun cov hc => hnn cov (List.mem_cons_of_mem _ hc)) ?_
    intro e' he'
    obtain ⟨e, he, _, _, hle⟩ :=
      forall₂_mem_right (add_sc_mono st c (hnn c (List.mem_cons_self _ _))) e' he'
    exact le_trans (hst e he) hle

/-- C4: every key present in functionCounts and statementCounts at the
end of construction remains present (with unchanged key lists) after any
sequence of add calls; under the precondition that every snapshot range
count is non-negative, every key maps to a non-negative integer, and no
count decreases across a further add call. -/
theorem counts_keys_stable_and_monotone (t : Tree) (covs : List ScriptCov)
    (hnn : ∀ cov ∈ covs, ∀ f ∈ cov.functions, ∀ r ∈ f.ranges, 0 ≤ r.count) :
    ((addAll (construct t) covs).functionCounts.map Prod.fst
        = (construct t).functionCounts.map Prod.fst) ∧
    ((addAll (construct t) covs).statementCounts.map (fun e => (e.node, e.root))
        = (construct t).statementCounts.map (fun e => (e.node, e.root))) ∧
    (∀ n v, mapGet (addAll (construct t) covs).functionCounts n = some v → 0 ≤ v) ∧
    (∀ e ∈ (addAll (construct t) covs).statementCounts, 0 ≤ e.count) ∧
    (∀ cov, (∀ f ∈ cov.functions, ∀ r ∈ f.ranges, 0 ≤ r.count) →
      (∀ n v, mapGet (addAll (construct t) covs).functionCounts n = some v →
        ∃ w, mapGet (add (addAll (construct t) covs) cov).1.functionCounts n = some w ∧
          v ≤ w) ∧
      List.Forall₂ (fun e e' : StmtEntry => e.count ≤ e'.count)
        (addAll (construct t) covs).statementCounts
        (add (addAll (construct t) covs) cov).1.statementCounts) := by
  obtain ⟨_, _, hfc0, hsc0⟩ := construct_inv t
  refine ⟨addAll_fc_keys _ _, addAll_sc_nodes _ _, ?_, ?_, ?_⟩
  · refine addAll_fc_nonneg _ _ hnn ?_
    intro n v hv
    obtain ⟨k, hk⟩ := mapGet_mem _ _ _ hv
    have h0 : v = 0 := hfc0 (k, v) hk
    exact h0.ge
  · exact addAll_sc_nonneg _ _ hnn (fun e he => (hsc0 e he).ge)
  · intro cov hcov
    refine ⟨add_fc_mono _ _ hcov, ?_⟩
    exact (add_sc_mono _ _ hcov).imp (fun {e e'} h => h.2.2)

/-- Witness for C4: the theorem applied to the concrete tree and one
concrete non-negative snapshot, with a second snapshot for the final
monotonicity conjunct. -/
theorem counts_keys_stable_and_monotone_witness :
    (((addAll (construct exTree) [covA]).functionCounts.map Prod.fst
        = (construct exTree).functionCounts.map Prod.fst) ∧
    ((addAll (construct exTree) [covA]).statementCounts.map (fun e => (e.node, e.root))
        = (construct exTree).statementCounts.map (fun e => (e.node, e.root))) ∧
    (∀ n v, mapGet (addAll (construct exTree) [covA]).functionCounts n = some v → 0 ≤ v) ∧
    (∀ e ∈ (addAll (construct exTree) [covA]).statementCounts, 0 ≤ e.count) ∧
    (∀ cov, (∀ f ∈ cov.functions, ∀ r ∈ f.ranges, 0 ≤ r.count) →
      (∀ n v, mapGet (addAll (construct exTree) [covA]).functionCounts n = some v →
        ∃ w, mapGet (add (addAll (construct exTree) [covA]) cov).1.functionCounts n = some w ∧
          v ≤ w) ∧
      List.Forall₂ (fun e e' : StmtEntry => e.count ≤ e'.count)
        (addAll (construct exTree) [covA]).statementCounts
        (add (addAll (construct exTree) [covA]) cov).1.statementCounts)) :=
  counts_keys_stable_and_monotone exTree [covA] (by decide)

/-! Claim C6: unmatched roots and rootless statements are left alone. -/

/-- C6: during an add call, a statement entry with no recorded root, or
whose root has no matched entry in this snapshot, keeps its count
exactly; a declared function key matched by no entry keeps its stored
count; and a snapshot with no function entries leaves everything but the
path unchanged and raises no error. -/
theorem add_unmatched_unchanged (st : IstambulizeScript) (cov : ScriptCov)
    (funcs : List (Node × FunctionCov))
    (hm : matchFunctions st.roots cov.functions = .ok funcs) :
    List.Forall₂ (fun e e' : StmtEntry =>
      e'.node = e.node ∧ e'.root = e.root ∧
      ((e.root = none ∨ ∃ r, e.root = some r ∧ mapGet funcs r = none) → e'.count = e.count))
      st.statementCounts (add st cov).1.statementCounts ∧
    (∀ n, (∀ p ∈ funcs, ¬ p.1.nid = n.nid) →
      mapGet (add st cov).1.functionCounts n = mapGet st.functionCounts n) ∧
    (cov.functions = [] → add st cov = ({ st with path := some cov.url }, none)) :=
  ⟨(add_sc_rel st cov funcs hm).imp (fun {e e'} h => ⟨h.1, h.2.1, h.2.2.1⟩),
   fun n h => add_fc_untouched st cov funcs hm n h,
   add_empty_functions st cov⟩

/-- Witness for C6: the concrete accumulator together with the empty
snapshot, whose match result is the empty map, so the single declared
function and the single statement keep count zero and no error occurs. -/
theorem add_unmatched_unchanged_witness :
    (List.Forall₂ (fun e e' : StmtEntry =>
      e'.node = e.node ∧ e'.root = e.root ∧
      ((e.root = none ∨ ∃ r, e.root = some r ∧
          mapGet ([] : List (Node × FunctionCov)) r = none) → e'.count = e.count))
      (construct exTree).statementCounts (add (construct exTree) covEmpty).1.statementCounts ∧
    (∀ n, (∀ p ∈ ([] : List (Node × FunctionCov)), ¬ p.1.nid = n.nid) →
      mapGet (add (construct exTree) covEmpty).1.functionCounts n =
        mapGet (construct exTree).functionCounts n) ∧
    (covEmpty.functions = [] →
      add (construct exTree) covEmpty =
        ({ construct exTree with path := some covEmpty.url }, none))) :=
  add_unmatched_unchanged (construct exTree) covEmpty [] (by rfl)

/-! Claim C7: the shape of toIstanbul. -/

/-- C7: toIstanbul always emits empty branch maps; its path is the url of
the most recent add call, or the empty string when add was never called;
and reading is pure and repeatable. -/
theorem toIstanbul_spec :
    (∀ st : IstambulizeScript, (toIstanbul st).branchMap = [] ∧ (toIstanbul st).b = []) ∧
    (∀ t : Tree, (toIstanbul (construct t)).path = "") ∧
    (∀ (t : Tree) (covs : List ScriptCov) (cov : ScriptCov), covs.getLast? = some cov →
      (toIstanbul (addAll (construct t) covs)).path = cov.url) ∧
    (∀ st : IstambulizeScript, toIstanbul st = toIstanbul st) := by
  refine ⟨fun st => ⟨rfl, rfl⟩, fun t => ?_, fun t covs cov h => ?_, fun st => rfl⟩
  · have hp : (construct t).path = none := (construct_inv t).1
    simp only [toIstanbul, hp]
  · have hp : (addAll (construct t) covs).path = some cov.url := addAll_path _ _ _ h
    simp only [toIstanbul, hp]

/-- Witness for C7: the path conjunct applied at a concrete one-snapshot
history. -/
theorem toIstanbul_spec_witness :
    (toIstanbul (addAll (construct exTree) [covA])).path = covA.url :=
  toIstanbul_spec.2.2.1 exTree [covA] covA (by rfl)

/-! Claim C1: what a failing add call really leaves behind. -/

/-- Counterexample to C1: from a constructed accumulator, an add call
that fails with CountNotFound (its statement span lies outside every
range of the exactly matched entry) has already overwritten path and
already updated functionCounts and functionNames, so the observable
state is not what it was before the failing call. -/
theorem add_failure_mutates_state :
    (add (construct exTreeBad) covBad).2 = some Err.countNotFound ∧
    ¬ ((add (construct exTreeBad) covBad).1.path = (construct exTreeBad).path ∧
       (add (construct exTreeBad) covBad).1.functionCounts =
         (construct exTreeBad).functionCounts ∧
       (add (construct exTreeBad) covBad).1.functionNames =
         (construct exTreeBad).functionNames ∧
       (add (construct exTreeBad) covBad).1.statementCounts =
         (construct exTreeBad).statementCounts) := by
  refine ⟨by rfl, fun h => ?_⟩
  have := h.1
  revert this
  decide

/-- C1 amended: a failing add call is not all-or-nothing: the path is
overwritten and mutations performed before the throw stay visible.  What
does hold is that nothing accumulated earlier is lost: both count maps
keep exactly their key lists, every function count and every statement
count is at least its prior value (when the snapshot's range counts are
non-negative), and the path equals the failing snapshot's url. -/
theorem add_failure_keeps_keys_and_totals (st : IstambulizeScript) (cov : ScriptCov)
    (hnn : ∀ f ∈ cov.functions, ∀ r ∈ f.ranges, 0 ≤ r.count) (e : Err)
    (herr : (add st cov).2 = some e) :
    ((add st cov).1.functionCounts).map Prod.fst = st.functionCounts.map Prod.fst ∧
    ((add st cov).1.statementCounts).map (fun e => (e.node, e.root)) =
      st.statementCounts.map (fun e => (e.node, e.root)) ∧
    (∀ n v, mapGet st.functionCounts n = some v →
      ∃ w, mapGet (add st cov).1.functionCounts n = some w ∧ v ≤ w) ∧
    List.Forall₂ (fun e e' : StmtEntry => e.count ≤ e'.count)
      st.statementCounts (add st cov).1.statementCounts ∧
    (add st cov).1.path = some cov.url :=
  ⟨add_fc_keys st cov, add_sc_nodes st cov, add_fc_mono st cov hnn,
    (add_sc_mono st cov hnn).imp (fun {e e'} h => h.2.2), add_path st cov⟩

/-- Witness for the amended C1: the concrete failing call. -/
theorem add_failure_keeps_keys_and_totals_witness :
    (((add (construct exTreeBad) covBad).1.functionCounts).map Prod.fst =
        (construct exTreeBad).functionCounts.map Prod.fst ∧
      ((add (construct exTreeBad) covBad).1.statementCounts).map (fun e => (e.node, e.root)) =
        (construct exTreeBad).statementCounts.map (fun e => (e.node, e.root)) ∧
      (∀ n v, mapGet (construct exTreeBad).functionCounts n = some v →
        ∃ w, mapGet (add (construct exTreeBad) covBad).1.functionCounts n = some w ∧ v ≤ w) ∧
      List.Forall₂ (fun e e' : StmtEntry => e.count ≤ e'.count)
        (construct exTreeBad).statementCounts
        (add (construct exTreeBad) covBad).1.statementCounts ∧
      (add (construct exTreeBad) covBad).1.path = some covBad.url) :=
  add_failure_keeps_keys_and_totals (construct exTreeBad) covBad (by decide)
    Err.countNotFound (by rfl)

/-! Claim C8: what is and is not determined by construction alone. -/

/-- Modelled from the spec for C8 only: the report with the statement and
function hit counts erased, so two reports agree under it exactly when
they differ at most in their counts. -/
def stripCounts (d : IstanbulFileCoverageData) : IstanbulFileCoverageData :=
  { d with s := d.s.map (fun p => (p.1, 0)), f := d.f.map (fun p => (p.1, 0)) }

/-- Counterexample to C8 as stated: two accumulators built from the same
tree, one fed a snapshot naming the function g and the other the same
snapshot naming it h, produce reports that differ beyond their counts:
the last-observed function name differs. -/
theorem report_names_depend_on_adds :
    stripCounts (toIstanbul (addAll (construct exTree) [covA])) ≠
      stripCounts (toIstanbul (addAll (construct exTree) [covB])) := by
  decide

theorem toIstanbul_statementMap (st : IstambulizeScript) :
    (toIstanbul st).statementMap = (statementsGo 0 st.statementCounts).1 := rfl

theorem toIstanbul_s (st : IstambulizeScript) :
    (toIstanbul st).s = (statementsGo 0 st.statementCounts).2 := rfl

theorem toIstanbul_fnMap (st : IstambulizeScript) :
    (toIstanbul st).fnMap = (functionsGo st.functionNames 0 st.functionCounts).1 := rfl

theorem toIstanbul_f (st : IstambulizeScript) :
    (toIstanbul st).f = (functionsGo st.functionNames 0 st.functionCounts).2 := rfl

theorem statementsGo_proj (l1 : List StmtEntry) :
    ∀ (i : Nat) (l2 : List StmtEntry),
      l1.map (fun e => e.node) = l2.map (fun e => e.node) →
      (statementsGo i l1).1 = (statementsGo i l2).1 ∧
      (statementsGo i l1).2.map Prod.fst = (statementsGo i l2).2.map Prod.fst := by
  induction l1 with
  | nil =>
    intro i l2 h
    cases l2 with
    | nil => exact ⟨rfl, rfl⟩
    | cons e2 r2 => cases h
  | cons e r1 ih =>
    intro i l2 h
    cases l2 with
    | nil => cases h
    | cons e2 r2 =>
      simp only [List.map_cons, List.cons.injEq] at h
      obtain ⟨hn, hr⟩ := h
      obtain ⟨ih1, ih2⟩ := ih (i + 1) r2 hr
      cases h1 : statementsGo (i + 1) r1 with
      | mk m1 s1 =>
        cases h2 : statementsGo (i + 1) r2 with
        | mk m2 s2 =>
          rw [h1, h2] at ih1 ih2
          dsimp only at ih1 ih2
          simp only [statementsGo, h1, h2]
          exact ⟨by rw [hn, ih1], by simp only [List.map_cons]; rw [ih2]⟩

theorem functionsGo_proj (l1 : List (Node × Int)) :
    ∀ (names1 names2 : List (Node × String)) (i : Nat) (l2 : List (Node × Int)),
      l1.map Prod.fst = l2.map Prod.fst →
      (functionsGo names1 i l1).1.map (fun p => (p.1, p.2.decl, p.2.loc, p.2.line)) =
        (functionsGo names2 i l2).1.map (fun p => (p.1, p.2.decl, p.2.loc, p.2.line)) ∧
      (functionsGo names1 i l1).2.map Prod.fst =
        (functionsGo names2 i l2).2.map Prod.fst := by
  induction l1 with
  | nil =>
    intro names1 names2 i l2 h
    cases l2 with
    | nil => exact ⟨rfl, rfl⟩
    | cons p2 r2 => cases h
  | cons p r1 ih =>
    intro names1 names2 i l2 h
    cases l2 with
    | nil => cases h
    | cons p2 r2 =>
      obtain ⟨n, c⟩ := p
      obtain ⟨n2, c2⟩ := p2
      simp only [List.map_cons, List.cons.injEq] at h
      obtain ⟨hn, hr⟩ := h
      obtain ⟨ih1, ih2⟩ := ih names1 names2 (i + 1) r2 hr
      cases h1 : functionsGo names1 (i + 1) r1 with
      | mk m1 f1 =>
        cases h2 : functionsGo names2 (i + 1) r2 with
        | mk m2 f2 =>
          rw [h1, h2] at ih1 ih2
          dsimp only at ih1 ih2
          simp only [functionsGo, h1, h2]
          refine ⟨?_, by simp only [List.map_cons]; rw [ih2]⟩
          simp only [List.map_cons]
          rw [hn, ih1]

/-- C8 amended: the synthetic statement and function id sequences and the
source locations they map to are determined solely by construction: any
two add histories leave identical statementMap, identical id key
sequences, and identical location parts of fnMap.  What may differ
besides the counts are the last-observed function names and the path. -/
theorem ids_and_locations_construction_determined (st : IstambulizeScript)
    (covs1 covs2 : List ScriptCov) :
    (toIstanbul (addAll st covs1)).statementMap =
      (toIstanbul (addAll st covs2)).statementMap ∧
    (toIstanbul (addAll st covs1)).s.map Prod.fst =
      (toIstanbul (addAll st covs2)).s.map Prod.fst ∧
    (toIstanbul (addAll st covs1)).fnMap.map (fun p => (p.1, p.2.decl, p.2.loc, p.2.line)) =
      (toIstanbul (addAll st covs2)).fnMap.map (fun p => (p.1, p.2.decl, p.2.loc, p.2.line)) ∧
    (toIstanbul (addAll st covs1)).f.map Prod.fst =
      (toIstanbul (addAll st covs2)).f.map Prod.fst := by
  have hsc : (addAll st covs1).statementCounts.map (fun e => e.node) =
      (addAll st covs2).statementCounts.map (fun e => e.node) := by
    have h1 := addAll_sc_nodes st covs1
    have h2 := addAll_sc_nodes st covs2
    have e1 := congrArg (List.map Prod.fst) (h1.trans h2.symm)
    simpa [List.map_map, Function.comp] using e1
  have hfc : (addAll st covs1).functionCounts.map Prod.fst =
      (addAll st covs2).functionCounts.map Prod.fst :=
    (addAll_fc_keys st covs1).trans (addAll_fc_keys st covs2).symm
  obtain ⟨hs1, hs2⟩ := statementsGo_proj (addAll st covs1).statementCounts 0
    (addAll st covs2).statementCounts hsc
  obtain ⟨hf1, hf2⟩ := functionsGo_proj (addAll st covs1).functionCounts
    (addAll st covs1).functionNames (addAll st covs2).functionNames 0
    (addAll st covs2).functionCounts hfc
  exact ⟨by rw [toIstanbul_statementMap, toIstanbul_statementMap, hs1],
    by rw [toIstanbul_s, toIstanbul_s, hs2],
    by rw [toIstanbul_fnMap, toIstanbul_fnMap]; exact hf1,
    by rw [toIstanbul_f, toIstanbul_f, hf2]⟩

/-! Claim C3: the Function Matcher. -/

theorem spanMatches_iff (r : RangeCov) (n : Node) :
    spanMatches r n = true ↔ r.startOffset = n.start ∧ r.endOffset = n.endOff := by
  simp [spanMatches]

theorem findFromLast_ok (n : Node) (l : List FunctionCov)
    (h : ∀ f ∈ l, f.ranges ≠ []) : ∃ o, findFromLast n l = .ok o := by
  induction l with
  | nil => exact ⟨none, rfl⟩
  | cons g rest ih =>
    cases hr : g.ranges with
    | nil => exact absurd hr (h g (List.mem_cons_self _ _))
    | cons r0 rs =>
      by_cases hs : spanMatches r0 n = true
      · exact ⟨some (rest.length, g), by simp only [findFromLast, hr, if_pos hs]⟩
      · obtain ⟨o, ho⟩ := ih (fun f hf => h f (List.mem_cons_of_mem _ hf))
        exact ⟨o, by simp only [findFromLast, hr, if_neg hs]; exact ho⟩

theorem mapSet_append_of_not_mem {α : Type} (m : List (Node × α)) (n : Node) (v : α)
    (h : ∀ p ∈ m, ¬ p.1.nid = n.nid) : mapSet m n v = m ++ [(n, v)] := by
  induction m with
  | nil => rfl
  | cons q rest ih =>
    obtain ⟨k, w⟩ := q
    have hk : ¬ k.nid = n.nid := h (k, w) (List.mem_cons_self _ _)
    simp only [mapSet, if_neg hk, List.cons_append, List.cons.injEq, true_and]
    exact ih (fun p hp => h p (List.mem_cons_of_mem _ hp))

theorem matchFunctionsGo_ok (ns : List Node) :
    ∀ (remaining : List FunctionCov) (acc : List (Node × FunctionCov)),
      (∀ f ∈ remaining, f.ranges ≠ []) →
      ∃ m, matchFunctionsGo ns remaining acc = .ok m := by
  induction ns with
  | nil => exact fun remaining acc _ => ⟨acc, rfl⟩
  | cons n ns' ih =>
    intro remaining acc hne
    obtain ⟨o, ho⟩ := findFromLast_ok n remaining.reverse
      (fun f hf => hne f (List.mem_reverse.mp hf))
    cases o with
    | none =>
      obtain ⟨m, hm⟩ := ih remaining acc hne
      exact ⟨m, by simp only [matchFunctionsGo, ho]; exact hm⟩
    | some pr =>
      obtain ⟨i, f⟩ := pr
      obtain ⟨m, hm⟩ := ih (remaining.eraseIdx i) (mapSet acc n f)
        (fun g hg => hne g ((List.eraseIdx_sublist remaining i).subset hg))
      exact ⟨m, by simp only [matchFunctionsGo, ho]; exact hm⟩

theorem matchFunctionsGo_spec (ns : List Node) :
    ∀ (remaining : List FunctionCov) (acc m : List (Node × FunctionCov)),
      (∀ f ∈ remaining, f.ranges ≠ []) →
      List.Pairwise (fun a b : Node => a.nid ≠ b.nid) ns →
      (∀ n ∈ ns, ∀ p ∈ acc, ¬ p.1.nid = n.nid) →
      matchFunctionsGo ns remaining acc = .ok m →
      ∃ mnew, m = acc ++ mnew ∧
        (∀ p ∈ mnew, p.1 ∈ ns ∧ ∃ r0 rs, p.2.ranges = r0 :: rs ∧
          r0.startOffset = p.1.start ∧ r0.endOffset = p.1.endOff) ∧
        List.Subperm (mnew.map Prod.snd) remaining ∧
        (mnew.map (fun p => p.1.nid)).Nodup ∧
        (∀ n ∈ ns,
          (∀ f ∈ remaining, ∀ r0 rs, f.ranges = r0 :: rs → spanMatches r0 n = false) →
          ∀ p ∈ mnew, ¬ p.1.nid = n.nid) := by
  induction ns with
  | nil =>
    intro remaining acc m _ _ _ h
    cases h
    exact ⟨[], by simp, fun p hp => absurd hp (List.not_mem_nil p),
      List.nil_subperm, List.nodup_nil, fun n hn => absurd hn (List.not_mem_nil n)⟩
  | cons n ns' ih =>
    intro remaining acc m hne hpw hacc h
    have hpwhead : ∀ b ∈ ns', n.nid ≠ b.nid := (List.pairwise_cons.mp hpw).1
    have hpwtail : List.Pairwise (fun a b : Node => a.nid ≠ b.nid) ns' :=
      (List.pairwise_cons.mp hpw).2
    unfold matchFunctionsGo at h
    cases ho : findFromLast n remaining.reverse with
    | error e => rw [ho] at h; cases h
    | ok o =>
      rw [ho] at h
      cases o with
      | none =>
        obtain ⟨mnew, hm, hprops, hsub, hnd, habs⟩ :=
          ih remaining acc m hne hpwtail
            (fun n' hn' p hp => hacc n' (List.mem_cons_of_mem _ hn') p hp) h
        refine ⟨mnew, hm, ?_, hsub, hnd, ?_⟩
        · exact fun p hp => ⟨List.mem_cons_of_mem _ (hprops p hp).1, (hprops p hp).2⟩
        · intro n' hn' hcond p hp
          rcases List.mem_cons.mp hn' with rfl | hn'
          · exact fun he => hpwhead p.1 (hprops p hp).1 he.symm
          · exact habs n' hn' hcond p hp
      | some pr =>
        obtain ⟨i, f⟩ := pr
        have hget : remaining.get? i = some f := findFromLast_reverse_get n remaining i f ho
        have hfmem : f ∈ remaining := List.get?_mem hget
        obtain ⟨_, _, r0, rs, hr0, hs⟩ := findFromLast_some_spec n remaining.reverse i f ho
        have hspan := (spanMatches_iff r0 n).mp hs
        have hmap : mapSet acc n f = acc ++ [(n, f)] :=
          mapSet_append_of_not_mem acc n f (hacc n (List.mem_cons_self _ _))
        obtain ⟨mnew', hm, hprops, hsub, hnd, habs⟩ :=
          ih (remaining.eraseIdx i) (mapSet acc n f) m
            (fun g hg => hne g ((List.eraseIdx_sublist remaining i).subset hg))
            hpwtail
            (fun n' hn' p hp => by
              rw [hmap] at hp
              rcases List.mem_append.mp hp with hp | hp
              · exact hacc n' (List.mem_cons_of_mem _ hn') p hp
              · rw [List.mem_singleton.mp hp]
                exact fun he => hpwhead n' hn' he)
            h
        rw [hmap] at hm
        refine ⟨(n, f) :: mnew', by rw [hm]; simp, ?_, ?_, ?_, ?_⟩
        · intro p hp
          rcases List.mem_cons.mp hp with rfl | hp
          · exact ⟨List.mem_cons_self _ _, r0, rs, hr0, hspan.1, hspan.2⟩
          · exact ⟨List.mem_cons_of_mem _ (hprops p hp).1, (hprops p hp).2⟩
        · have hperm : remaining.Perm (f :: remaining.eraseIdx i) :=
            perm_cons_eraseIdx remaining i f hget
          have hstep : List.Subperm (f :: mnew'.map Prod.snd) (f :: remaining.eraseIdx i) :=
            (List.subperm_cons f).mpr hsub
          exact hstep.trans hperm.symm.subperm
        · rw [List.map_cons, List.nodup_cons]
          refine ⟨fun hmem => ?_, hnd⟩
          simp only [List.mem_map] at hmem
          obtain ⟨p, hp, hpe⟩ := hmem
          exact hpwhead p.1 (hprops p hp).1 hpe.symm
        · intro n' hn' hcond p hp
          rcases List.mem_cons.mp hp with hpe | hp
          · subst hpe
            rcases List.mem_cons.mp hn' with heq | hn'
            · have hfalse : spanMatches r0 n = false := heq ▸ hcond f hfmem r0 rs hr0
              exact absurd (hs.symm.trans hfalse) (by simp)
            · exact hpwhead n' hn'
          · rcases List.mem_cons.mp hn' with heq | hn'
            · intro he
              exact hpwhead p.1 (hprops p hp).1 (heq ▸ he).symm
            · exact habs n' hn'
                (fun g hg => hcond g ((List.eraseIdx_sublist remaining i).subset hg)) p hp

/-- C3: with every engine entry carrying at least one range and the roots
forming a set (distinct identities, iterated in order), matchFunctions
succeeds, pairs a root with an engine entry only when that entry's
ranges[0] span exactly equals the root's span, consumes each engine
entry at most once (the matched entries form a sub-multiset of the input
and the keys are distinct), leaves roots without an exact-span match
absent, and discards leftover unmatched entries without any error. -/
theorem matchFunctions_spec (funcNodes : List Node) (funcCovs : List FunctionCov)
    (hne : ∀ f ∈ funcCovs, f.ranges ≠ [])
    (hnd : List.Pairwise (fun a b : Node => a.nid ≠ b.nid) funcNodes) :
    ∃ m, matchFunctions funcNodes funcCovs = .ok m ∧
      (∀ p ∈ m, p.1 ∈ funcNodes ∧ ∃ r0 rs, p.2.ranges = r0 :: rs ∧
        r0.startOffset = p.1.start ∧ r0.endOffset = p.1.endOff) ∧
      List.Subperm (m.map Prod.snd) funcCovs ∧
      (m.map (fun p => p.1.nid)).Nodup ∧
      (∀ n ∈ funcNodes,
        (∀ f ∈ funcCovs, ∀ r0 rs, f.ranges = r0 :: rs → spanMatches r0 n = false) →
        ∀ p ∈ m, ¬ p.1.nid = n.nid) := by
  obtain ⟨m, hm⟩ := matchFunctionsGo_ok funcNodes funcCovs [] hne
  obtain ⟨mnew, hmeq, hprops, hsub, hnd', habs⟩ :=
    matchFunctionsGo_spec funcNodes funcCovs [] m hne hnd
      (fun n _ p hp => absurd hp (List.not_mem_nil p)) hm
  rw [List.nil_append] at hmeq
  exact ⟨mnew, hmeq ▸ hm, hprops, hsub, hnd', habs⟩

/-- Witness for C3: the concrete root set of the example tree matched
against a pool with one exactly-matching entry (consumed for funcNode)
and one merely-enclosing entry (matching nothing, silently discarded). -/
theorem matchFunctions_spec_witness :
    ∃ m, matchFunctions [progNode, funcNode]
        [⟨"wide", [⟨0, 11, 3⟩], true⟩, ⟨"g", [⟨0, 10, 1⟩], true⟩] = .ok m ∧
      (∀ p ∈ m, p.1 ∈ [progNode, funcNode] ∧ ∃ r0 rs, p.2.ranges = r0 :: rs ∧
        r0.startOffset = p.1.start ∧ r0.endOffset = p.1.endOff) ∧
      List.Subperm (m.map Prod.snd)
        [⟨"wide", [⟨0, 11, 3⟩], true⟩, ⟨"g", [⟨0, 10, 1⟩], true⟩] ∧
      (m.map (fun p => p.1.nid)).Nodup ∧
      (∀ n ∈ [progNode, funcNode],
        (∀ f ∈ [(⟨"wide", [⟨0, 11, 3⟩], true⟩ : FunctionCov), ⟨"g", [⟨0, 10, 1⟩], true⟩],
          ∀ r0 rs, f.ranges = r0 :: rs → spanMatches r0 n = false) →
        ∀ p ∈ m, ¬ p.1.nid = n.nid) :=
  matchFunctions_spec [progNode, funcNode]
    [⟨"wide", [⟨0, 11, 3⟩], true⟩, ⟨"g", [⟨0, 10, 1⟩], true⟩]
    (by decide) (by decide)

/-! Claim C5: merge equivalence of sequential add calls. -/

/-- The span of a range, without its count. -/
def rangeSpan (r : RangeCov) : Int × Int := (r.startOffset, r.endOffset)

/-- The span skeleton of an engine function entry. -/
def covSpans (f : FunctionCov) : List (Int × Int) := f.ranges.map rangeSpan

/-- Modelled from the spec for C5: the sum of two ranges with the same
span, keeping the first span and adding the counts. -/
def sumRange (r1 r2 : RangeCov) : RangeCov :=
  ⟨r1.startOffset, r1.endOffset, r1.count + r2.count⟩

/-- Modelled from the spec for C5: the per-function sum of corresponding
range counts. -/
def sumCov (f g : FunctionCov) : FunctionCov :=
  { f with ranges := List.zipWith sumRange f.ranges g.ranges }

/-- Modelled from the spec for C5: the synthetic snapshot formed by
summing corresponding range counts per function. -/
def sumScriptCov (a b : ScriptCov) : ScriptCov :=
  { b with functions := List.zipWith sumCov a.functions b.functions }

theorem exists_pair_list {α β γ : Type} (f : α → γ) (g : β → γ) (A : List α) :
    ∀ B : List β, A.map f = B.map g →
      ∃ l : List (α × β), A = l.map Prod.fst ∧ B = l.map Prod.snd ∧
        ∀ x ∈ l, f x.1 = g x.2 := by
  induction A with
  | nil =>
    intro B h
    cases B with
    | nil => exact ⟨[], rfl, rfl, fun x hx => absurd hx (List.not_mem_nil x)⟩
    | cons b bs => cases h
  | cons a as ih =>
    intro B h
    cases B with
    | nil => cases h
    | cons b bs =>
      simp only [List.map_cons, List.cons.injEq] at h
      obtain ⟨l, hA, hB, hl⟩ := ih bs h.2
      refine ⟨(a, b) :: l, by rw [List.map_cons, ← hA], by rw [List.map_cons, ← hB], ?_⟩
      intro x hx
      rcases List.mem_cons.mp hx with rfl | hx
      · exact h.1
      · exact hl x hx

theorem zipWith_pair {α β γ : Type} (f : α → β → γ) (l : List (α × β)) :
    List.zipWith f (l.map Prod.fst) (l.map Prod.snd) = l.map (fun x => f x.1 x.2) := by
  induction l with
  | nil => rfl
  | cons x xs ih => simp only [List.map_cons, List.zipWith_cons_cons, ih]

theorem map_eraseIdx {α β : Type} (f : α → β) (l : List α) :
    ∀ i : Nat, (l.eraseIdx i).map f = (l.map f).eraseIdx i := by
  induction l with
  | nil => intro i; rfl
  | cons x xs ih =>
    intro i
    cases i with
    | zero => rfl
    | succ j => simp only [List.eraseIdx, List.map_cons, ih]

/-! More precise facts about mapSet needed for the commutation argument. -/

theorem mapSet_mapSet_self {α : Type} (m : List (Node × α)) (n : Node) (v1 v2 : α) :
    mapSet (mapSet m n v1) n v2 = mapSet m n v2 := by
  induction m with
  | nil => simp [mapSet]
  | cons q rest ih =>
    obtain ⟨k, w⟩ := q
    by_cases hk : k.nid = n.nid
    · simp [mapSet, hk]
    · simp only [mapSet, if_neg hk, ih]

theorem mapSet_key_congr_present {α : Type} (m : List (Node × α)) (n n' : Node) (v : α)
    (hs : (mapGet m n).isSome) (h : n.nid = n'.nid) :
    mapSet m n v = mapSet m n' v := by
  induction m with
  | nil => simp [mapGet] at hs
  | cons q rest ih =>
    obtain ⟨k, w⟩ := q
    by_cases hk : k.nid = n.nid
    · simp [mapSet, hk, hk.trans h, h]
    · have hk' : ¬ k.nid = n'.nid := fun he => hk (he.trans h.symm)
      rw [mapGet, if_neg hk] at hs
      simp only [mapSet, if_neg hk, if_neg hk', ih hs]

theorem mapSet_mapSet_nid_present {α : Type} (m : List (Node × α)) (n n' : Node)
    (v1 v2 : α) (hs : (mapGet m n).isSome) (h : n.nid = n'.nid) :
    mapSet (mapSet m n v1) n' v2 = mapSet m n' v2 := by
  induction m with
  | nil => simp [mapGet] at hs
  | cons q rest ih =>
    obtain ⟨k, w⟩ := q
    by_cases hk : k.nid = n.nid
    · simp [mapSet, hk, hk.trans h, h]
    · have hk' : ¬ k.nid = n'.nid := fun he => hk (he.trans h.symm)
      rw [mapGet, if_neg hk] at hs
      simp only [mapSet, if_neg hk, if_neg hk', ih hs]

theorem mapSet_comm_present {α : Type} (m : List (Node × α)) (n n' : Node) (v1 v2 : α)
    (hs : (mapGet m n).isSome) (h : ¬ n.nid = n'.nid) :
    mapSet (mapSet m n v1) n' v2 = mapSet (mapSet m n' v2) n v1 := by
  induction m with
  | nil => simp [mapGet] at hs
  | cons q rest ih =>
    obtain ⟨k, w⟩ := q
    have hns : ¬ n'.nid = n.nid := fun he => h he.symm
    by_cases hk : k.nid = n.nid
    · have hk' : ¬ k.nid = n'.nid := fun he => h (hk.symm.trans he)
      simp [mapSet, hk, hk', h, hns]
    · rw [mapGet, if_neg hk] at hs
      by_cases hk' : k.nid = n'.nid
      · simp [mapSet, hk, hk', h, hns]
      · simp only [mapSet, if_neg hk, if_neg hk', ih hs]

theorem mapSet_map_val {α β : Type} (g : α → β) (m : List (Node × α)) (n : Node) (v : α) :
    (mapSet m n v).map (fun q => (q.1, g q.2)) =
      mapSet (m.map (fun q => (q.1, g q.2))) n (g v) := by
  induction m with
  | nil => rfl
  | cons q rest ih =>
    obtain ⟨k, w⟩ := q
    by_cases hk : k.nid = n.nid
    · simp [mapSet, hk]
    · simp only [List.map_cons, mapSet, if_neg hk, ih]

theorem rangeSpan_inj {r1 r2 : RangeCov} (h : rangeSpan r1 = rangeSpan r2) :
    r1.startOffset = r2.startOffset ∧ r1.endOffset = r2.endOffset := by
  unfold rangeSpan at h
  exact Prod.mk.injEq _ _ _ _ ▸ h

theorem spanMatches_congr (r1 r2 : RangeCov) (n : Node) (h : rangeSpan r1 = rangeSpan r2) :
    spanMatches r1 n = spanMatches r2 n := by
  obtain ⟨h1, h2⟩ := rangeSpan_inj h
  unfold spanMatches
  rw [h1, h2]

theorem spanMatches_sumRange (r1 r2 : RangeCov) (n : Node) :
    spanMatches (sumRange r1 r2) n = spanMatches r1 n := rfl

theorem getCountGo_triple (node : Node) (lr : List (RangeCov × RangeCov))
    (hsp : ∀ x ∈ lr, rangeSpan x.1 = rangeSpan x.2) :
    (∃ e, getCountGo node (lr.map Prod.fst) = .error e ∧
          getCountGo node (lr.map Prod.snd) = .error e ∧
          getCountGo node (lr.map (fun x => sumRange x.1 x.2)) = .error e) ∨
    (∃ ca cb, getCountGo node (lr.map Prod.fst) = .ok ca ∧
          getCountGo node (lr.map Prod.snd) = .ok cb ∧
          getCountGo node (lr.map (fun x => sumRange x.1 x.2)) = .ok (ca + cb)) := by
  induction lr with
  | nil => exact Or.inl ⟨.countNotFound, rfl, rfl, rfl⟩
  | cons x rest ih =>
    obtain ⟨ra, rb⟩ := x
    obtain ⟨h1, h2⟩ := rangeSpan_inj (hsp (ra, rb) (List.mem_cons_self _ _))
    by_cases hc : ra.startOffset ≤ node.start ∧ node.endOff ≤ ra.endOffset
    · refine Or.inr ⟨ra.count, rb.count, ?_, ?_, ?_⟩
      · simp only [List.map_cons, getCountGo, if_pos hc]
      · have hcb : rb.startOffset ≤ node.start ∧ node.endOff ≤ rb.endOffset := by
          rw [← h1, ← h2]; exact hc
        simp only [List.map_cons, getCountGo, if_pos hcb]
      · simp only [List.map_cons, getCountGo]
        rw [if_pos (by exact hc : (sumRange ra rb).startOffset ≤ node.start ∧
          node.endOff ≤ (sumRange ra rb).endOffset)]
        rfl
    · have hcb : ¬ (rb.startOffset ≤ node.start ∧ node.endOff ≤ rb.endOffset) := by
        rw [← h1, ← h2]; exact hc
      have hrest := ih (fun y hy => hsp y (List.mem_cons_of_mem _ hy))
      rcases hrest with ⟨e, e1, e2, e3⟩ | ⟨ca, cb, o1, o2, o3⟩
      · refine Or.inl ⟨e, ?_, ?_, ?_⟩
        · simp only [List.map_cons, getCountGo, if_neg hc]; exact e1
        · simp only [List.map_cons, getCountGo, if_neg hcb]; exact e2
        · simp only [List.map_cons, getCountGo]
          rw [if_neg (by exact hc : ¬ ((sumRange ra rb).startOffset ≤ node.start ∧
            node.endOff ≤ (sumRange ra rb).endOffset))]
          exact e3
      · refine Or.inr ⟨ca, cb, ?_, ?_, ?_⟩
        · simp only [List.map_cons, getCountGo, if_neg hc]; exact o1
        · simp only [List.map_cons, getCountGo, if_neg hcb]; exact o2
        · simp only [List.map_cons, getCountGo]
          rw [if_neg (by exact hc : ¬ ((sumRange ra rb).startOffset ≤ node.start ∧
            node.endOff ≤ (sumRange ra rb).endOffset))]
          exact o3

theorem getCount_triple (a b : FunctionCov) (node : Node) (h : covSpans a = covSpans b) :
    (∃ e, getCount a.ranges node = .error e ∧ getCount b.ranges node = .error e ∧
        getCount (sumCov a b).ranges node = .error e) ∨
    (∃ ca cb, getCount a.ranges node = .ok ca ∧ getCount b.ranges node = .ok cb ∧
        getCount (sumCov a b).ranges node = .ok (ca + cb)) := by
  obtain ⟨lr, ha, hb, hsp⟩ := exists_pair_list rangeSpan rangeSpan a.ranges b.ranges h
  have hsum : (sumCov a b).ranges = lr.map (fun x => sumRange x.1 x.2) := by
    show List.zipWith sumRange a.ranges b.ranges = _
    rw [ha, hb, zipWith_pair]
  have hrev : ∀ x ∈ lr.reverse, rangeSpan x.1 = rangeSpan x.2 :=
    fun x hx => hsp x (List.mem_reverse.mp hx)
  have htrip := getCountGo_triple node lr.reverse hrev
  unfold getCount
  rw [ha, hb, hsum, ← List.map_reverse, ← List.map_reverse, ← List.map_reverse]
  exact htrip

/-- First projection of a matched list of paired snapshots. -/
abbrev pairFst (l : List (Node × (FunctionCov × FunctionCov))) : List (Node × FunctionCov) :=
  l.map (fun q => (q.1, q.2.1))

/-- Second projection of a matched list of paired snapshots. -/
abbrev pairSnd (l : List (Node × (FunctionCov × FunctionCov))) : List (Node × FunctionCov) :=
  l.map (fun q => (q.1, q.2.2))

/-- Summed projection of a matched list of paired snapshots. -/
abbrev pairSum (l : List (Node × (FunctionCov × FunctionCov))) : List (Node × FunctionCov) :=
  l.map (fun q => (q.1, sumCov q.2.1 q.2.2))

theorem sumCov_ranges_nil (a b : FunctionCov) (ha : a.ranges = []) :
    (sumCov a b).ranges = [] := by
  show List.zipWith sumRange a.ranges b.ranges = []
  rw [ha]
  exact List.zipWith_nil_left

theorem sumCov_ranges_cons (a b : FunctionCov) (ra0 : RangeCov) (ras : List RangeCov)
    (rb0 : RangeCov) (rbs : List RangeCov) (ha : a.ranges = ra0 :: ras)
    (hb : b.ranges = rb0 :: rbs) :
    (sumCov a b).ranges = sumRange ra0 rb0 :: List.zipWith sumRange ras rbs := by
  show List.zipWith sumRange a.ranges b.ranges = _
  rw [ha, hb, List.zipWith_cons_cons]

theorem findFromLast_triple (n : Node) (l : List (FunctionCov × FunctionCov))
    (hal : ∀ x ∈ l, covSpans x.1 = covSpans x.2) :
    (findFromLast n (l.map Prod.fst) = .error .typeError ∧
     findFromLast n (l.map Prod.snd) = .error .typeError ∧
     findFromLast n (l.map (fun x => sumCov x.1 x.2)) = .error .typeError) ∨
    (findFromLast n (l.map Prod.fst) = .ok none ∧
     findFromLast n (l.map Prod.snd) = .ok none ∧
     findFromLast n (l.map (fun x => sumCov x.1 x.2)) = .ok none) ∨
    (∃ i a b, (a, b) ∈ l ∧
      findFromLast n (l.map Prod.fst) = .ok (some (i, a)) ∧
      findFromLast n (l.map Prod.snd) = .ok (some (i, b)) ∧
      findFromLast n (l.map (fun x => sumCov x.1 x.2)) = .ok (some (i, sumCov a b))) := by
  induction l with
  | nil => exact Or.inr (Or.inl ⟨rfl, rfl, rfl⟩)
  | cons x rest ih =>
    obtain ⟨a, b⟩ := x
    have hcs : covSpans a = covSpans b := hal (a, b) (List.mem_cons_self _ _)
    cases ha : a.ranges with
    | nil =>
      have hb : b.ranges = [] := by
        have : covSpans b = [] := by rw [← hcs]; unfold covSpans; rw [ha]; rfl
        unfold covSpans at this
        exact List.map_eq_nil.mp this
      refine Or.inl ⟨?_, ?_, ?_⟩
      · simp only [List.map_cons, findFromLast, ha]
      · simp only [List.map_cons, findFromLast, hb]
      · simp only [List.map_cons, findFromLast, sumCov_ranges_nil a b ha]
    | cons ra0 ras =>
      cases hb : b.ranges with
      | nil =>
        exfalso
        unfold covSpans at hcs
        rw [ha, hb] at hcs
        cases hcs
      | cons rb0 rbs =>
        have hspan0 : rangeSpan ra0 = rangeSpan rb0 := by
          unfold covSpans at hcs
          rw [ha, hb] at hcs
          simp only [List.map_cons, List.cons.injEq] at hcs
          exact hcs.1
        have hsm : spanMatches rb0 n = spanMatches ra0 n :=
          (spanMatches_congr ra0 rb0 n hspan0).symm
        have hsum := sumCov_ranges_cons a b ra0 ras rb0 rbs ha hb
        by_cases hm : spanMatches ra0 n = true
        · refine Or.inr (Or.inr ⟨rest.length, a, b, List.mem_cons_self _ _, ?_, ?_, ?_⟩)
          · simp only [List.map_cons, findFromLast, ha, if_pos hm, List.length_map]
          · simp only [List.map_cons, findFromLast, hb, hsm, if_pos hm, List.length_map]
          · simp only [List.map_cons, findFromLast, hsum,
              spanMatches_sumRange ra0 rb0 n, if_pos hm, List.length_map]
        · have hstep := ih (fun y hy => hal y (List.mem_cons_of_mem _ hy))
          rcases hstep with ⟨e1, e2, e3⟩ | ⟨o1, o2, o3⟩ | ⟨i, a', b', hmem, o1, o2, o3⟩
          · refine Or.inl ⟨?_, ?_, ?_⟩
            · simp only [List.map_cons, findFromLast, ha, if_neg hm]; exact e1
            · simp only [List.map_cons, findFromLast, hb, hsm, if_neg hm]; exact e2
            · simp only [List.map_cons, findFromLast, hsum,
                spanMatches_sumRange ra0 rb0 n, if_neg hm]; exact e3
          · refine Or.inr (Or.inl ⟨?_, ?_, ?_⟩)
            · simp only [List.map_cons, findFromLast, ha, if_neg hm]; exact o1
            · simp only [List.map_cons, findFromLast, hb, hsm, if_neg hm]; exact o2
            · simp only [List.map_cons, findFromLast, hsum,
                spanMatches_sumRange ra0 rb0 n, if_neg hm]; exact o3
          · refine Or.inr (Or.inr ⟨i, a', b', List.mem_cons_of_mem _ hmem, ?_, ?_, ?_⟩)
            · simp only [List.map_cons, findFromLast, ha, if_neg hm]; exact o1
            · simp only [List.map_cons, findFromLast, hb, hsm, if_neg hm]; exact o2
            · simp only [List.map_cons, findFromLast, hsum,
                spanMatches_sumRange ra0 rb0 n, if_neg hm]; exact o3

theorem matchFunctionsGo_triple (ns : List Node) :
    ∀ (l : List (FunctionCov × FunctionCov)) (accT : List (Node × (FunctionCov × FunctionCov))),
      (∀ x ∈ l, covSpans x.1 = covSpans x.2) →
      (∀ q ∈ accT, covSpans q.2.1 = covSpans q.2.2) →
      (matchFunctionsGo ns (l.map Prod.fst) (pairFst accT) = .error .typeError ∧
       matchFunctionsGo ns (l.map Prod.snd) (pairSnd accT) = .error .typeError ∧
       matchFunctionsGo ns (l.map (fun x => sumCov x.1 x.2)) (pairSum accT) =
         .error .typeError) ∨
      (∃ mT, matchFunctionsGo ns (l.map Prod.fst) (pairFst accT) = .ok (pairFst mT) ∧
        matchFunctionsGo ns (l.map Prod.snd) (pairSnd accT) = .ok (pairSnd mT) ∧
        matchFunctionsGo ns (l.map (fun x => sumCov x.1 x.2)) (pairSum accT) =
          .ok (pairSum mT) ∧
        (∀ q ∈ mT, covSpans q.2.1 = covSpans q.2.2)) := by
  induction ns with
  | nil =>
    intro l accT _ hacc
    exact Or.inr ⟨accT, rfl, rfl, rfl, hacc⟩
  | cons n ns' ih =>
    intro l accT hal hacc
    have halrev : ∀ x ∈ l.reverse, covSpans x.1 = covSpans x.2 :=
      fun x hx => hal x (List.mem_reverse.mp hx)
    have htrip := findFromLast_triple n l.reverse halrev
    rw [List.map_reverse, List.map_reverse, List.map_reverse] at htrip
    rcases htrip with ⟨e1, e2, e3⟩ | ⟨o1, o2, o3⟩ | ⟨i, a, b, hmem, o1, o2, o3⟩
    · refine Or.inl ⟨?_, ?_, ?_⟩
      · simp only [matchFunctionsGo, e1]
      · simp only [matchFunctionsGo, e2]
      · simp only [matchFunctionsGo, e3]
    · have hstep := ih l accT hal hacc
      rcases hstep with ⟨f1, f2, f3⟩ | ⟨mT, f1, f2, f3, hmT⟩
      · refine Or.inl ⟨?_, ?_, ?_⟩
        · simp only [matchFunctionsGo, o1]; exact f1
        · simp only [matchFunctionsGo, o2]; exact f2
        · simp only [matchFunctionsGo, o3]; exact f3
      · refine Or.inr ⟨mT, ?_, ?_, ?_, hmT⟩
        · simp only [matchFunctionsGo, o1]; exact f1
        · simp only [matchFunctionsGo, o2]; exact f2
        · simp only [matchFunctionsGo, o3]; exact f3
    · have hmem' : (a, b) ∈ l := List.mem_reverse.mp hmem
      have hstep := ih (l.eraseIdx i) (mapSet accT n (a, b))
        (fun x hx => hal x ((List.eraseIdx_sublist l i).subset hx))
        (fun q hq => by
          rcases mem_mapSet accT n (a, b) q hq with h | h
          · exact hacc q h
          · rw [h]; exact hal (a, b) hmem')
      have hfst : mapSet (pairFst accT) n a = pairFst (mapSet accT n (a, b)) :=
        (mapSet_map_val (fun x => x.1) accT n (a, b)).symm
      have hsnd : mapSet (pairSnd accT) n b = pairSnd (mapSet accT n (a, b)) :=
        (mapSet_map_val (fun x => x.2) accT n (a, b)).symm
      have hsum : mapSet (pairSum accT) n (sumCov a b) = pairSum (mapSet accT n (a, b)) :=
        (mapSet_map_val (fun x => sumCov x.1 x.2) accT n (a, b)).symm
      have her1 : (l.map Prod.fst).eraseIdx i = (l.eraseIdx i).map Prod.fst :=
        (map_eraseIdx Prod.fst l i).symm
      have her2 : (l.map Prod.snd).eraseIdx i = (l.eraseIdx i).map Prod.snd :=
        (map_eraseIdx Prod.snd l i).symm
      have her3 : (l.map (fun x => sumCov x.1 x.2)).eraseIdx i =
          (l.eraseIdx i).map (fun x => sumCov x.1 x.2) :=
        (map_eraseIdx (fun x => sumCov x.1 x.2) l i).symm
      rcases hstep with ⟨f1, f2, f3⟩ | ⟨mT, f1, f2, f3, hmT⟩
      · refine Or.inl ⟨?_, ?_, ?_⟩
        · simp only [matchFunctionsGo, o1, her1, hfst]; exact f1
        · simp only [matchFunctionsGo, o2, her2, hsnd]; exact f2
        · simp only [matchFunctionsGo, o3, her3, hsum]; exact f3
      · refine Or.inr ⟨mT, ?_, ?_, ?_, hmT⟩
        · simp only [matchFunctionsGo, o1, her1, hfst]; exact f1
        · simp only [matchFunctionsGo, o2, her2, hsnd]; exact f2
        · simp only [matchFunctionsGo, o3, her3, hsum]; exact f3

/-- Commutation of the function-count loop with a prior bump of one key:
running addFuncs after adding δ to an existing key n gives the same map
as running addFuncs first and then adding δ to n, with identical error
behaviour. -/
theorem addFuncs_bump (l : List (Node × FunctionCov)) :
    ∀ (st st' : IstambulizeScript) (n : Node) (w δ : Int),
      mapGet st.functionCounts n = some w →
      st'.functionCounts = mapSet st.functionCounts n (w + δ) →
      ∃ w', mapGet (addFuncs st l).1.functionCounts n = some w' ∧
        (addFuncs st' l).1.functionCounts =
          mapSet (addFuncs st l).1.functionCounts n (w' + δ) ∧
        (addFuncs st' l).2 = (addFuncs st l).2 := by
  induction l with
  | nil =>
    intro st st' n w δ hw hfc
    exact ⟨w, hw, hfc, rfl⟩
  | cons p rest ih =>
    obtain ⟨m, funcCov⟩ := p
    intro st st' n w δ hw hfc
    by_cases hp : m.kind.isProgram
    · simp only [addFuncs, if_pos hp]
      exact ih st st' n w δ hw hfc
    · cases hr : funcCov.ranges with
      | nil =>
        simp only [addFuncs, if_neg hp, hr]
        exact ⟨w, hw, hfc, trivial⟩
      | cons r0 rrest =>
        by_cases hmn : m.nid = n.nid
        · have hgm : mapGet st.functionCounts m = some w := by
            rw [mapGet_congr st.functionCounts m n hmn]; exact hw
          have hc : addCount st.functionCounts m r0.count =
              .ok (mapSet st.functionCounts m (w + r0.count)) := by
            unfold addCount; rw [hgm]
          have hgm' : mapGet st'.functionCounts m = some (w + δ) := by
            rw [hfc, mapGet_congr _ m n hmn]
            exact mapGet_mapSet_same _ _ _ _ rfl
          have hc' : addCount st'.functionCounts m r0.count =
              .ok (mapSet st'.functionCounts m ((w + δ) + r0.count)) := by
            unfold addCount; rw [hgm']
          simp only [addFuncs, if_neg hp, hr, hc, hc']
          refine ih
            { st with functionCounts := mapSet st.functionCounts m (w + r0.count),
                      functionNames := mapSet st.functionNames m funcCov.functionName }
            { st' with functionCounts := mapSet st'.functionCounts m ((w + δ) + r0.count),
                       functionNames := mapSet st'.functionNames m funcCov.functionName }
            n (w + r0.count) δ ?_ ?_
          · exact mapGet_mapSet_same _ _ _ _ hmn
          · show mapSet st'.functionCounts m ((w + δ) + r0.count) =
              mapSet (mapSet st.functionCounts m (w + r0.count)) n ((w + r0.count) + δ)
            have hval : (w + δ) + r0.count = (w + r0.count) + δ := by omega
            rw [hfc, hval]
            rw [mapSet_mapSet_nid_present st.functionCounts n m _ _ (by rw [hw]; rfl) hmn.symm]
            rw [mapSet_mapSet_nid_present st.functionCounts m n _ _ (by rw [hgm]; rfl) hmn]
            exact mapSet_key_congr_present st.functionCounts m n _ (by rw [hgm]; rfl) hmn
        · have hnm : ¬ n.nid = m.nid := fun he => hmn he.symm
          have hgm' : mapGet st'.functionCounts m = mapGet st.functionCounts m := by
            rw [hfc]
            exact mapGet_mapSet_other _ _ _ _ hnm
          cases hgm : mapGet st.functionCounts m with
          | none =>
            have hc : addCount st.functionCounts m r0.count = .error .unknownNode := by
              unfold addCount; rw [hgm]
            have hc' : addCount st'.functionCounts m r0.count = .error .unknownNode := by
              unfold addCount; rw [hgm', hgm]
            simp only [addFuncs, if_neg hp, hr, hc, hc']
            exact ⟨w, hw, hfc, trivial⟩
          | some old =>
            have hc : addCount st.functionCounts m r0.count =
                .ok (mapSet st.functionCounts m (old + r0.count)) := by
              unfold addCount; rw [hgm]
            have hc' : addCount st'.functionCounts m r0.count =
                .ok (mapSet st'.functionCounts m (old + r0.count)) := by
              unfold addCount; rw [hgm', hgm]
            simp only [addFuncs, if_neg hp, hr, hc, hc']
            refine ih
              { st with functionCounts := mapSet st.functionCounts m (old + r0.count),
                        functionNames := mapSet st.functionNames m funcCov.functionName }
              { st' with functionCounts := mapSet st'.functionCounts m (old + r0.count),
                         functionNames := mapSet st'.functionNames m funcCov.functionName }
              n w δ ?_ ?_
            · show mapGet (mapSet st.functionCounts m (old + r0.count)) n = some w
              rw [mapGet_mapSet_other _ _ _ _ hmn]
              exact hw
            · show mapSet st'.functionCounts m (old + r0.count) =
                mapSet (mapSet st.functionCounts m (old + r0.count)) n (w + δ)
              rw [hfc]
              exact (mapSet_comm_present st.functionCounts n m (w + δ) (old + r0.count)
                (by rw [hw]; rfl) hnm)

/-- Simulation of the function-count loop: running the second snapshot's
loop after the first equals running the summed snapshot's loop, on the
level of functionCounts and errors, and the first loop's error equals
the summed loop's error. -/
theorem addFuncs_triple :
    ∀ (mT : List (Node × (FunctionCov × FunctionCov))),
      (∀ q ∈ mT, covSpans q.2.1 = covSpans q.2.2) →
      ∀ (stA stB stC : IstambulizeScript),
        stB.functionCounts = (addFuncs stA (pairFst mT)).1.functionCounts →
        stC.functionCounts = stA.functionCounts →
        (addFuncs stB (pairSnd mT)).1.functionCounts =
          (addFuncs stC (pairSum mT)).1.functionCounts ∧
        (addFuncs stB (pairSnd mT)).2 = (addFuncs stC (pairSum mT)).2 ∧
        (addFuncs stA (pairFst mT)).2 = (addFuncs stC (pairSum mT)).2 := by
  intro mT
  induction mT with
  | nil =>
    intro _ stA stB stC hB hC
    exact ⟨hB.trans hC.symm, rfl, rfl⟩
  | cons q rest ih =>
    obtain ⟨n, a, b⟩ := q
    intro hal stA stB stC hB hC
    have halr : ∀ q ∈ rest, covSpans q.2.1 = covSpans q.2.2 :=
      fun q hq => hal q (List.mem_cons_of_mem _ hq)
    have hab : covSpans a = covSpans b := hal (n, (a, b)) (List.mem_cons_self _ _)
    by_cases hp : n.kind.isProgram
    · simp only [pairFst, pairSnd, pairSum, List.map_cons, addFuncs, if_pos hp] at hB ⊢
      exact ih halr stA stB stC hB hC
    · cases ha : a.ranges with
      | nil =>
        have hbr : b.ranges = [] := by
          have hn : covSpans b = [] := by rw [← hab]; unfold covSpans; rw [ha]; rfl
          unfold covSpans at hn
          exact List.map_eq_nil.mp hn
        have hsr : (sumCov a b).ranges = [] := sumCov_ranges_nil a b ha
        simp only [pairFst, List.map_cons, addFuncs, if_neg hp, ha] at hB
        simp only [pairSnd, pairSum, List.map_cons, addFuncs, if_neg hp, hbr, hsr]
        simp only [pairFst, List.map_cons, addFuncs, if_neg hp, ha]
        exact ⟨hB.trans hC.symm, trivial, trivial⟩
      | cons ra0 ras =>
        cases hbr : b.ranges with
        | nil =>
          exfalso
          unfold covSpans at hab
          rw [ha, hbr] at hab
          cases hab
        | cons rb0 rbs =>
          have hsr : (sumCov a b).ranges = sumRange ra0 rb0 :: List.zipWith sumRange ras rbs :=
            sumCov_ranges_cons a b ra0 ras rb0 rbs ha hbr
          cases hga : mapGet stA.functionCounts n with
          | none =>
            have hcA : addCount stA.functionCounts n ra0.count = .error .unknownNode := by
              unfold addCount; rw [hga]
            simp only [pairFst, List.map_cons, addFuncs, if_neg hp, ha, hcA] at hB
            have hgb : mapGet stB.functionCounts n = none := by rw [hB]; exact hga
            have hgc : mapGet stC.functionCounts n = none := by rw [hC]; exact hga
            have hcB : addCount stB.functionCounts n rb0.count = .error .unknownNode := by
              unfold addCount; rw [hgb]
            have hcC : addCount stC.functionCounts n (sumRange ra0 rb0).count =
                .error .unknownNode := by
              unfold addCount; rw [hgc]
            simp only [pairSnd, pairSum, List.map_cons, addFuncs, if_neg hp, hbr, hsr, hcB, hcC]
            simp only [pairFst, List.map_cons, addFuncs, if_neg hp, ha, hcA]
            exact ⟨hB.trans hC.symm, trivial, trivial⟩
          | some w =>
            have hcA : addCount stA.functionCounts n ra0.count =
                .ok (mapSet stA.functionCounts n (w + ra0.count)) := by
              unfold addCount; rw [hga]
            -- the A loop: head update then the rest, pulled apart with the bump lemma
            obtain ⟨w', hZ, hbumpA, herrA⟩ := addFuncs_bump (pairFst rest) stA
              { stA with functionCounts := mapSet stA.functionCounts n (w + ra0.count),
                         functionNames := mapSet stA.functionNames n a.functionName }
              n w ra0.count hga rfl
            simp only [pairFst, List.map_cons, addFuncs, if_neg hp, ha, hcA] at hB ⊢
            rw [hbumpA] at hB
            -- the B side
            have hgb : mapGet stB.functionCounts n = some (w' + ra0.count) := by
              rw [hB]; exact mapGet_mapSet_same _ _ _ _ rfl
            have hcB : addCount stB.functionCounts n rb0.count =
                .ok (mapSet stB.functionCounts n ((w' + ra0.count) + rb0.count)) := by
              unfold addCount; rw [hgb]
            have hstB1 : mapSet stB.functionCounts n ((w' + ra0.count) + rb0.count) =
                mapSet (addFuncs stA (pairFst rest)).1.functionCounts n
                  (w' + (ra0.count + rb0.count)) := by
              rw [hB, mapSet_mapSet_self]
              congr 1
              omega
            obtain ⟨wB, hZB, hbumpB, herrB⟩ := addFuncs_bump (pairSnd rest)
              { stB with functionCounts := (addFuncs stA (pairFst rest)).1.functionCounts }
              { stB with functionCounts := mapSet stB.functionCounts n ((w' + ra0.count) + rb0.count), functionNames := mapSet stB.functionNames n b.functionName }
              n w' (ra0.count + rb0.count) hZ hstB1
            -- the C side
            have hgc : mapGet stC.functionCounts n = some w := by rw [hC]; exact hga
            have hcC : addCount stC.functionCounts n (sumRange ra0 rb0).count =
                .ok (mapSet stC.functionCounts n (w + (sumRange ra0 rb0).count)) := by
              unfold addCount; rw [hgc]
            have hsumcount : (sumRange ra0 rb0).count = ra0.count + rb0.count := rfl
            obtain ⟨wC, hZC, hbumpC, herrC⟩ := addFuncs_bump (pairSum rest) stC
              { stC with functionCounts := mapSet stC.functionCounts n (w + (sumRange ra0 rb0).count), functionNames := mapSet stC.functionNames n (sumCov a b).functionName }
              n w (ra0.count + rb0.count) hgc (by rw [hsumcount])
            -- the induction hypothesis ties the two stripped runs together
            obtain ⟨hfcE, herrE, herrAE⟩ := ih halr stA
              { stB with functionCounts := (addFuncs stA (pairFst rest)).1.functionCounts }
              stC rfl hC
            simp only [pairSnd, pairSum, List.map_cons, addFuncs, if_neg hp, hbr, hsr, hcB, hcC]
            rw [hbumpB, hbumpC, herrB, herrC, herrA]
            have hww : wB = wC := by
              rw [hfcE] at hZB
              rw [hZB] at hZC
              exact Option.some.injEq _ _ ▸ hZC
            refine ⟨?_, herrE, herrAE⟩
            rw [hfcE, hww]

theorem mapGet_pair_triple (mT : List (Node × (FunctionCov × FunctionCov))) (root : Node) :
    (mapGet (pairFst mT) root = none ∧ mapGet (pairSnd mT) root = none ∧
     mapGet (pairSum mT) root = none) ∨
    (∃ a b, (a, b) ∈ mT.map Prod.snd ∧ mapGet (pairFst mT) root = some a ∧
      mapGet (pairSnd mT) root = some b ∧ mapGet (pairSum mT) root = some (sumCov a b)) := by
  induction mT with
  | nil => exact Or.inl ⟨rfl, rfl, rfl⟩
  | cons q rest ih =>
    obtain ⟨k, a, b⟩ := q
    by_cases hk : k.nid = root.nid
    · refine Or.inr ⟨a, b, by simp, ?_, ?_, ?_⟩
      · simp only [pairFst, List.map_cons, mapGet, if_pos hk]
      · simp only [pairSnd, List.map_cons, mapGet, if_pos hk]
      · simp only [pairSum, List.map_cons, mapGet, if_pos hk]
    · rcases ih with ⟨h1, h2, h3⟩ | ⟨a', b', hmem, h1, h2, h3⟩
      · refine Or.inl ⟨?_, ?_, ?_⟩
        · simp only [pairFst, List.map_cons, mapGet, if_neg hk]; exact h1
        · simp only [pairSnd, List.map_cons, mapGet, if_neg hk]; exact h2
        · simp only [pairSum, List.map_cons, mapGet, if_neg hk]; exact h3
      · refine Or.inr ⟨a', b', by simp only [List.map_cons, List.mem_cons]; exact Or.inr hmem,
          ?_, ?_, ?_⟩
        · simp only [pairFst, List.map_cons, mapGet, if_neg hk]; exact h1
        · simp only [pairSnd, List.map_cons, mapGet, if_neg hk]; exact h2
        · simp only [pairSum, List.map_cons, mapGet, if_neg hk]; exact h3

/-- Simulation of the statement loop: running the second snapshot's loop on
the first loop's output equals running the summed snapshot's loop, and
the first loop errs exactly when the summed loop errs. -/
theorem addStmts_triple (mT : List (Node × (FunctionCov × FunctionCov)))
    (hal : ∀ q ∈ mT, covSpans q.2.1 = covSpans q.2.2) :
    ∀ entries : List StmtEntry,
      (addStmts (pairSnd mT) (addStmts (pairFst mT) entries).1).1 =
        (addStmts (pairSum mT) entries).1 ∧
      (addStmts (pairSnd mT) (addStmts (pairFst mT) entries).1).2 =
        (addStmts (pairSum mT) entries).2 ∧
      (addStmts (pairFst mT) entries).2 = (addStmts (pairSum mT) entries).2 := by
  intro entries
  induction entries with
  | nil => exact ⟨rfl, rfl, rfl⟩
  | cons e rest ih =>
    obtain ⟨ih1, ih2, ih3⟩ := ih
    cases hA : addStmts (pairFst mT) rest with
    | mk restA errA =>
      cases hB : addStmts (pairSnd mT) restA with
      | mk restB errB =>
        cases hC : addStmts (pairSum mT) rest with
        | mk restC errC =>
          rw [hA] at ih1 ih2 ih3
          rw [hB] at ih1 ih2
          rw [hC] at ih1 ih2 ih3
          dsimp only at ih1 ih2 ih3
          cases hroot : e.root with
          | none =>
            simp only [addStmts, hroot, hA, hB, hC, ih1, ih2, ih3]
            exact ⟨trivial, trivial, trivial⟩
          | some root =>
            rcases mapGet_pair_triple mT root with ⟨g1, g2, g3⟩ | ⟨a, b, hmem, g1, g2, g3⟩
            · simp only [addStmts, hroot, g1, g2, g3, hA, hB, hC, ih1, ih2, ih3]
              exact ⟨trivial, trivial, trivial⟩
            · have hab : covSpans a = covSpans b := by
                simp only [List.mem_map] at hmem
                obtain ⟨q, hq, hqe⟩ := hmem
                have := hal q hq
                rw [hqe] at this
                exact this
              rcases getCount_triple a b e.node hab with
                ⟨er, c1, c2, c3⟩ | ⟨ca, cb, c1, c2, c3⟩
              · simp only [addStmts, hroot, g1, g2, g3, c1, c2, c3]
                exact ⟨trivial, trivial, trivial⟩
              · have hc2' : getCount b.ranges ({ e with count := e.count + ca } : StmtEntry).node =
                    .ok cb := c2
                simp only [addStmts, hroot, g1, g2, g3, c1, c2, c3, hA, hB, hC]
                refine ⟨?_, ih2, ih3⟩
                rw [ih1]
                simp only [List.cons.injEq, and_true]
                congr 1
                omega


/-- C5: for two snapshots of the same script whose function entries have
the same range-span structure (and hence match the same roots), running
add(A) then add(B) leaves the accumulator with the same statement and
function counts, and the same error outcome, as a single add of the
synthetic snapshot summing the corresponding range counts; in
particular, two sequential adds each reporting the example function
with count 1 leave that function with count 2. -/
theorem add_merge_equivalence (st : IstambulizeScript) (A B : ScriptCov)
    (hal : A.functions.map covSpans = B.functions.map covSpans) :
    ((add (add st A).1 B).1.functionCounts =
        (add st (sumScriptCov A B)).1.functionCounts ∧
      (add (add st A).1 B).1.statementCounts =
        (add st (sumScriptCov A B)).1.statementCounts ∧
      (add (add st A).1 B).2 = (add st (sumScriptCov A B)).2) ∧
    mapGet (add (add (construct exTree) covA).1 covB).1.functionCounts funcNode = some 2 := by
  refine ⟨?_, by rfl⟩
  obtain ⟨l, hA, hB, hl⟩ := exists_pair_list covSpans covSpans A.functions B.functions hal
  have hCfns : (sumScriptCov A B).functions = l.map (fun x => sumCov x.1 x.2) := by
    show List.zipWith sumCov A.functions B.functions = _
    rw [hA, hB, zipWith_pair]
  have htrip := matchFunctionsGo_triple st.roots l []
    hl (fun q hq => absurd hq (List.not_mem_nil q))
  rcases htrip with ⟨e1, e2, e3⟩ | ⟨mT, o1, o2, o3, hmT⟩
  · -- the matcher rejects all three snapshots identically
    have hmA : matchFunctions st.roots A.functions = .error .typeError := by
      unfold matchFunctions; rw [hA]; exact e1
    have hmB : matchFunctions st.roots B.functions = .error .typeError := by
      unfold matchFunctions; rw [hB]; exact e2
    have hmC : matchFunctions st.roots (sumScriptCov A B).functions = .error .typeError := by
      unfold matchFunctions; rw [hCfns]; exact e3
    simp only [add, hmA, hmB, hmC]
    exact ⟨trivial, trivial, trivial⟩
  · have hmA : matchFunctions st.roots A.functions = .ok (pairFst mT) := by
      unfold matchFunctions; rw [hA]; exact o1
    have hmB : matchFunctions st.roots B.functions = .ok (pairSnd mT) := by
      unfold matchFunctions; rw [hB]; exact o2
    have hmC : matchFunctions st.roots (sumScriptCov A B).functions = .ok (pairSum mT) := by
      unfold matchFunctions; rw [hCfns]; exact o3
    cases hafA : addFuncs { st with path := some A.url } (pairFst mT) with
    | mk st2A errA =>
      cases hafC : addFuncs { st with path := some (sumScriptCov A B).url } (pairSum mT) with
      | mk st2C errC =>
        have hframeA := addFuncs_frame (pairFst mT) { st with path := some A.url }
        rw [hafA] at hframeA
        have hframeC := addFuncs_frame (pairSum mT)
          { st with path := some (sumScriptCov A B).url }
        rw [hafC] at hframeC
        have hrootsA : st2A.roots = st.roots := hframeA.2.1
        have hscA : st2A.statementCounts = st.statementCounts := hframeA.2.2
        have hscC : st2C.statementCounts = st.statementCounts := hframeC.2.2
        cases errA with
        | some e =>
          -- the first function loop throws; so do the other two
          have htr := addFuncs_triple mT hmT { st with path := some A.url }
            { st2A with path := some B.url }
            { st with path := some (sumScriptCov A B).url }
            (by rw [hafA]) rfl
          rw [hafA, hafC] at htr
          obtain ⟨htfc, hterr, htAC⟩ := htr
          cases hafB : addFuncs { st2A with path := some B.url } (pairSnd mT) with
          | mk st2B errB =>
            rw [hafB] at htfc hterr
            have herrC : errC = some e := by
              have h := htAC
              dsimp only at h
              rw [← h]
            have herrB : errB = some e := by
              rw [herrC] at hterr
              exact hterr
            have hframeB := addFuncs_frame (pairSnd mT) { st2A with path := some B.url }
            rw [hafB] at hframeB
            have hmB' : matchFunctions ({ st2A with path := some B.url } :
                IstambulizeScript).roots B.functions = .ok (pairSnd mT) := by
              show matchFunctions st2A.roots B.functions = _
              rw [hrootsA]
              exact hmB
            simp only [add, hmA, hafA, hmB', hafB, hmC, hafC, herrB, herrC]
            refine ⟨htfc, ?_, trivial⟩
            have h1 : st2B.statementCounts = st2A.statementCounts := hframeB.2.2
            rw [h1, hscA, hscC]
        | none =>
          cases hsA : addStmts (pairFst mT) st.statementCounts with
          | mk entriesA errSA =>
            cases hsC : addStmts (pairSum mT) st.statementCounts with
            | mk entriesC errSC =>
              cases hsB : addStmts (pairSnd mT) entriesA with
              | mk entriesB errSB =>
                have hstmts := addStmts_triple mT hmT st.statementCounts
                rw [hsA, hsC] at hstmts
                dsimp only at hstmts
                rw [hsB] at hstmts
                dsimp only at hstmts
                obtain ⟨hs1, hs2, hs3⟩ := hstmts
                have hsA2 : addStmts (pairFst mT) st2A.statementCounts =
                    (entriesA, errSA) := by rw [hscA, hsA]
                have htr := addFuncs_triple mT hmT { st with path := some A.url }
                  { st2A with statementCounts := entriesA, path := some B.url }
                  { st with path := some (sumScriptCov A B).url }
                  (by rw [hafA]) rfl
                rw [hafA, hafC] at htr
                obtain ⟨htfc, hterr, htAC⟩ := htr
                have herrC : errC = none := by
                  have h := htAC
                  dsimp only at h
                  rw [← h]
                cases hafB : addFuncs
                    { st2A with statementCounts := entriesA, path := some B.url }
                    (pairSnd mT) with
                | mk st2B errB =>
                  rw [hafB] at htfc hterr
                  have herrB : errB = none := by
                    rw [herrC] at hterr
                    exact hterr
                  have hframeB := addFuncs_frame (pairSnd mT)
                    { st2A with statementCounts := entriesA, path := some B.url }
                  rw [hafB] at hframeB
                  have hsB2 : addStmts (pairSnd mT) st2B.statementCounts =
                      (entriesB, errSB) := by
                    have hsb : st2B.statementCounts = entriesA := hframeB.2.2
                    rw [hsb, hsB]
                  have hsC2 : addStmts (pairSum mT) st2C.statementCounts =
                      (entriesC, errSC) := by rw [hscC, hsC]
                  have hmB' : matchFunctions
                      ({ st2A with statementCounts := entriesA, path := some B.url } :
                        IstambulizeScript).roots B.functions = .ok (pairSnd mT) := by
                    show matchFunctions st2A.roots B.functions = _
                    rw [hrootsA]
                    exact hmB
                  simp only [add, hmA, hafA, hsA2, hmB', hafB, herrB, hsB2, hmC, hafC,
                    herrC, hsC2]
                  exact ⟨htfc, hs1, hs2⟩

/-- Witness for C5: the merge equivalence applied to the concrete
accumulator and the two concrete span-aligned snapshots. -/
theorem add_merge_equivalence_witness :
    (((add (add (construct exTree) covA).1 covB).1.functionCounts =
        (add (construct exTree) (sumScriptCov covA covB)).1.functionCounts ∧
      (add (add (construct exTree) covA).1 covB).1.statementCounts =
        (add (construct exTree) (sumScriptCov covA covB)).1.statementCounts ∧
      (add (add (construct exTree) covA).1 covB).2 =
        (add (construct exTree) (sumScriptCov covA covB)).2) ∧
    mapGet (add (add (construct exTree) covA).1 covB).1.functionCounts funcNode = some 2) :=
  add_merge_equivalence (construct exTree) covA covB (by decide)

end Istanbulize
